import Mathlib

/-!
# N-gram text generator: model of `textgenerator.cpp`

A shallow embedding of `buildMap` and `generateText`.

* `std::vector<std::string>` is a `List String`.
* `std::map<vector<string>, vector<string>>` is a list of entries kept in ascending key
  order with no repeated key (`GramMap.WF`); `operator[]` followed by `push_back` is
  `GramMap.pushBack`, `map::at` is `GramMap.atKey`.
* Element accesses and iterator ranges are checked: an access the C++ code would perform
  outside the vector is the fault `outOfRange`; a failed `map::at` is `keyNotFound`.
  Only `keyNotFound` is an exception of the C++ program (`Fault.thrown`); `outOfRange` and
  `overflow` mark undefined behaviour, where the program raises nothing.
* Loops are structural recursions on a fuel / iteration counter.
* `words.size() - N` is computed in `size_t`: a negative difference wraps modulo `2^64`
  (`wrapSize`).  Vector sizes are below `2^64`, so a non-negative value is kept as it is.
  The `int` counters of `buildMap` are naturals: they stay below the number of words.
* `N` and `totalWords` are naturals standing for `int` values (`getN` only returns values
  above 1). The `int` counter of the loop of `generateText` is checked: `++i` at
  `i = INT_MAX` (`intMax`) is the fault `overflow`.
* `randomInteger` is an injected oracle `rnd k lo hi`: the value returned by the `k`-th
  call when it is asked for a number in `[lo, hi]`.
-/

namespace TextGenerator

/-- Faults of the embedded program. `keyNotFound` is the exception thrown by `map::at`.
`outOfRange` and `overflow` stand for undefined behaviour of the C++ program (an unchecked
access outside a vector, a signed overflow of an `int`): nothing is thrown there. `fuel` is
a loop of the model cut short. -/
inductive Fault where
  | outOfRange
  | keyNotFound
  | overflow
  | fuel
  deriving DecidableEq, Repr

/-- Whether the fault is an exception that the C++ program throws to its caller. -/
def Fault.thrown : Fault → Bool
  | .keyNotFound => true
  | _ => false

/-- The type `map<vector<string>, vector<string>>`, as its in-order entry list. -/
abbrev GramMap := List (List String × List String)

/-- Comparison `operator<` of `vector<string>`: lexicographic over the words, each word
compared lexicographically over its characters. -/
def keyLt (a b : List String) : Prop := a.map String.toList < b.map String.toList

instance keyLtDecidable (a b : List String) : Decidable (keyLt a b) := by
  unfold keyLt; infer_instance

namespace GramMap

/-- The keys in enumeration order (what iterating the map yields). -/
def keys (m : GramMap) : List (List String) := m.map Prod.fst

/-- The representation invariant of `std::map`: strictly ascending keys. -/
def WF (m : GramMap) : Prop := (keys m).Pairwise keyLt

instance wfDecidable (m : GramMap) : Decidable (WF m) := by
  unfold WF; infer_instance

/-- The statement `gramMap[k].push_back(v)`: the entry of `k` is created empty at its
ordered position when absent, then `v` is appended to it. -/
def pushBack : GramMap → List String → String → GramMap
  | [], k, v => [(k, [v])]
  | (k', vs) :: rest, k, v =>
    if k = k' then (k', vs ++ [v]) :: rest
    else if keyLt k k' then (k, [v]) :: (k', vs) :: rest
    else (k', vs) :: pushBack rest k v

/-- Lookup of a key, `none` when it is absent. -/
def find : GramMap → List String → Option (List String)
  | [], _ => none
  | (k', vs) :: rest, k => if k' = k then some vs else find rest k

/-- The call `gramMap.at(k)`, which throws when `k` is absent. -/
def atKey (m : GramMap) (k : List String) : Except Fault (List String) :=
  match find m k with
  | some vs => .ok vs
  | none => .error .keyNotFound

/-- The suffix list of `k`, empty when `k` is absent. -/
def sufs (m : GramMap) (k : List String) : List String := (find m k).getD []

/-- Total number of recorded suffix entries. -/
def totalLen (m : GramMap) : Nat := (m.map (fun e => e.2.length)).sum

end GramMap

/-- The value of a `size_t` expression whose mathematical value is `v`: negative values
wrap modulo `2^64`. -/
def wrapSize (v : Int) : Nat := if 0 ≤ v then v.toNat else (v % 2 ^ 64).toNat

/-- The vector `vector<string>(words.begin() + a, words.begin() + b)`. -/
def vecRange (words : List String) (a b : Nat) : Except Fault (List String) :=
  if a ≤ b ∧ b ≤ words.length then .ok ((words.drop a).take (b - a)) else .error .outOfRange

/-- The element access `v[i]`. -/
def vecIndex {α : Type} (v : List α) (i : Int) : Except Fault α :=
  if 0 ≤ i then
    match v[i.toNat]? with
    | some x => .ok x
    | none => .error .outOfRange
  else .error .outOfRange

/-- First loop of `buildMap` (lines 40-44), from counter value `i`. -/
def interiorLoop (words : List String) (N : Nat) : Nat → Nat → GramMap → Except Fault GramMap
  | 0, _, _ => .error .fuel
  | fuel + 1, i, gramMap =>
    if i ≤ wrapSize ((words.length : Int) - N) then do
      let pfx ← vecRange words i (i + N - 1)
      let suffix ← vecIndex words ((i + N - 1 : Nat) : Int)
      interiorLoop words N fuel (i + 1) (gramMap.pushBack pfx suffix)
    else .ok gramMap

/-- Second loop of `buildMap` (lines 47-52), from counter value `i`. -/
def wrapLoop (words : List String) (N : Nat) : Nat → Nat → GramMap → Except Fault GramMap
  | 0, _, _ => .error .fuel
  | fuel + 1, i, gramMap =>
    if i < words.length then do
      let pfx ← vecRange words i words.length
      let pad ← if pfx.length + 1 ≤ N then vecRange words 0 (N - 1 - pfx.length)
                else .error .outOfRange
      let suffix ← vecIndex words (((i + N - 1) % words.length : Nat) : Int)
      wrapLoop words N fuel (i + 1) (gramMap.pushBack (pfx ++ pad) suffix)
    else .ok gramMap

/-- The function `buildMap`, on the words read from the file. -/
def buildMap (words : List String) (N : Nat) (gramMap : GramMap) : Except Fault GramMap := do
  let m ← interiorLoop words N (words.length + 2) 0 gramMap
  wrapLoop words N (words.length + 2) (wrapSize ((words.length : Int) - N + 1)) m

/-- The text written by `ss << word << " "` for each word of `ws`, after `ss`. -/
def emit (ss : String) (ws : List String) : String :=
  ws.foldl (fun s w => s ++ w ++ " ") ss

/-- The largest value of an `int` (32 bits). -/
def intMax : Nat := 2147483647

/-- Loop `for (int i = N; i <= totalWords; ++i)` of `generateText` (lines 110-116), from
counter value `i`, with `c` draws made so far. The increment `++i` overflows at
`i = INT_MAX`; `totalWords` stands for an `int`, so a value above `intMax`, which is no
argument of the C++ function, puts no bound on the counter either. -/
def genLoop (gramMap : GramMap) (rnd : Nat → Int → Int → Int) (totalWords : Nat) :
    Nat → Nat → Nat → List String → String → Except Fault String
  | 0, _, _, _, _ => .error .fuel
  | fuel + 1, i, c, currPrefix, ss =>
    if i ≤ totalWords then do
      let suffixes ← gramMap.atKey currPrefix
      let nextWord ← vecIndex suffixes (rnd c 0 ((suffixes.length : Int) - 1))
      match currPrefix with
      | [] => .error .outOfRange
      | _ :: rest =>
        if totalWords ≤ intMax ∧ i = intMax then .error .overflow
        else
          genLoop gramMap rnd totalWords fuel (i + 1) (c + 1) (rest ++ [nextWord])
            (ss ++ nextWord ++ " ")
    else .ok ss

/-- The function `generateText`. -/
def generateText (gramMap : GramMap) (N totalWords : Nat) (rnd : Nat → Int → Int → Int) :
    Except Fault String := do
  let keys := gramMap.keys
  let randomIndex := rnd 0 0 ((keys.length : Int) - 1)
  let currPrefix ← vecIndex keys randomIndex
  genLoop gramMap rnd totalWords (totalWords + 1 - N + 1) N 1 currPrefix (emit "" currPrefix)

/-- The words written to the stream by the loop of `generateText`, after `out`: the same
loop as `genLoop`, keeping the words apart. -/
def genWordsLoop (gramMap : GramMap) (rnd : Nat → Int → Int → Int) (totalWords : Nat) :
    Nat → Nat → Nat → List String → List String → Except Fault (List String)
  | 0, _, _, _, _ => .error .fuel
  | fuel + 1, i, c, currPrefix, out =>
    if i ≤ totalWords then do
      let suffixes ← gramMap.atKey currPrefix
      let nextWord ← vecIndex suffixes (rnd c 0 ((suffixes.length : Int) - 1))
      match currPrefix with
      | [] => .error .outOfRange
      | _ :: rest =>
        if totalWords ≤ intMax ∧ i = intMax then .error .overflow
        else
          genWordsLoop gramMap rnd totalWords fuel (i + 1) (c + 1) (rest ++ [nextWord])
            (out ++ [nextWord])
    else .ok out

/-- The words written to the stream by `generateText`, in order. -/
def generateWords (gramMap : GramMap) (N totalWords : Nat) (rnd : Nat → Int → Int → Int) :
    Except Fault (List String) := do
  let keys := gramMap.keys
  let randomIndex := rnd 0 0 ((keys.length : Int) - 1)
  let currPrefix ← vecIndex keys randomIndex
  genWordsLoop gramMap rnd totalWords (totalWords + 1 - N + 1) N 1 currPrefix currPrefix

/-- The oracle respects the inclusive bounds it is asked for. -/
def InRange (rnd : Nat → Int → Int → Int) : Prop :=
  ∀ k lo hi, lo ≤ hi → lo ≤ rnd k lo hi ∧ rnd k lo hi ≤ hi

/-- The window after one step: first word dropped, `s` appended. -/
def slide (w : List String) (s : String) : List String := w.tail ++ [s]

/-- Every recorded suffix slides its window onto a key. -/
def NoDangling (m : GramMap) : Prop :=
  ∀ e ∈ m, ∀ s ∈ e.2, slide e.1 s ∈ m.keys

instance noDanglingDecidable (m : GramMap) : Decidable (NoDangling m) := by
  unfold NoDangling; infer_instance

/-! ## Circular reference definition -/

/-- Token at position `k` of the corpus read as a circle. -/
def circ (tokens : List String) (k : Nat) : String := tokens.getD (k % tokens.length) ""

/-- The circular window of `N - 1` tokens starting at `i`. -/
def refWindow (tokens : List String) (N i : Nat) : List String :=
  (List.range (N - 1)).map (fun j => circ tokens (i + j))

/-- The suffixes of `p`: the token after each circular occurrence of `p`, by start index. -/
def refSuffixes (tokens : List String) (N : Nat) (p : List String) : List String :=
  ((List.range tokens.length).filter (fun i => refWindow tokens N i = p)).map
    (fun i => circ tokens (i + N - 1))

/-- The n-gram starting at `i`: circular window and the token after it. -/
def refGram (tokens : List String) (N i : Nat) : List String × String :=
  (refWindow tokens N i, circ tokens (i + N - 1))

/-- The n-grams of the circular corpus, by start index: window and following token. -/
def refGrams (tokens : List String) (N : Nat) : List (List String × String) :=
  (List.range tokens.length).map (fun i => (refWindow tokens N i, circ tokens (i + N - 1)))

/-- Successive `gramMap[k].push_back(v)` for the pairs of `gs`, in order. -/
def pushAll (m : GramMap) (gs : List (List String × String)) : GramMap :=
  gs.foldl (fun acc g => acc.pushBack g.1 g.2) m

/-- The statement `gramMap.clear()` of the restart command. -/
def clear (_gramMap : GramMap) : GramMap := []

/-- State of the loop of `generateText` (lines 110-116) after `n` iterations started with
`c` draws made: the current window and the words written so far. -/
def genState (gramMap : GramMap) (rnd : Nat → Int → Int → Int) :
    Nat → Nat → List String → List String → Except Fault (List String × List String)
  | 0, _, currPrefix, out => .ok (currPrefix, out)
  | n + 1, c, currPrefix, out => do
    let suffixes ← gramMap.atKey currPrefix
    let nextWord ← vecIndex suffixes (rnd c 0 ((suffixes.length : Int) - 1))
    match currPrefix with
    | [] => .error .outOfRange
    | _ :: rest => genState gramMap rnd n (c + 1) (rest ++ [nextWord]) (out ++ [nextWord])

/-- State of `generateText` after the start key is chosen and `j` iterations of its loop
are done: the current window and the words written so far. -/
def walk (gramMap : GramMap) (rnd : Nat → Int → Int → Int) (j : Nat) :
    Except Fault (List String × List String) := do
  let keys := gramMap.keys
  let randomIndex := rnd 0 0 ((keys.length : Int) - 1)
  let currPrefix ← vecIndex keys randomIndex
  genState gramMap rnd j 1 currPrefix currPrefix

/-! ## The key order -/

theorem keyLt_irrefl (a : List String) : ¬ keyLt a a := by
  unfold keyLt; exact lt_irrefl _

theorem keyLt_trans {a b c : List String} (h₁ : keyLt a b) (h₂ : keyLt b c) : keyLt a c := by
  unfold keyLt at *; exact lt_trans h₁ h₂

theorem toList_injective : Function.Injective String.toList := by
  intro s t h
  exact String.ext h

theorem keyLt_of_not {a b : List String} (h₁ : ¬ keyLt a b) (h₂ : a ≠ b) : keyLt b a := by
  unfold keyLt at *
  rcases lt_trichotomy (a.map String.toList) (b.map String.toList) with h | h | h
  · exact absurd h h₁
  · exact absurd (List.map_injective_iff.mpr toList_injective h) h₂
  · exact h

/-! ## The ordered map -/

namespace GramMap

theorem mem_keys_pushBack (m : GramMap) (k : List String) (v : String) (p : List String) :
    p ∈ keys (pushBack m k v) ↔ p = k ∨ p ∈ keys m := by
  induction m with
  | nil => simp [pushBack, keys]
  | cons e rest ih =>
    obtain ⟨k', vs⟩ := e
    unfold pushBack
    by_cases h₁ : k = k'
    · subst h₁
      simp [keys]
    · by_cases h₂ : keyLt k k'
      · simp [h₁, h₂, keys]
      · simp only [h₁, h₂, if_false]
        simp only [keys, List.map_cons, List.mem_cons] at ih ⊢
        rw [ih]
        tauto

theorem wf_pushBack {m : GramMap} (h : WF m) (k : List String) (v : String) :
    WF (pushBack m k v) := by
  induction m with
  | nil => simp [pushBack, WF, keys]
  | cons e rest ih =>
    obtain ⟨k', vs⟩ := e
    have hc : (∀ a ∈ keys rest, keyLt k' a) ∧ WF rest := by
      simpa [WF, keys] using h
    unfold pushBack
    by_cases h₁ : k = k'
    · subst h₁
      simpa [WF, keys] using h
    · by_cases h₂ : keyLt k k'
      · simp only [h₁, h₂, if_false, if_true]
        have : (keys ((k, [v]) :: (k', vs) :: rest)) = k :: keys ((k', vs) :: rest) := rfl
        unfold WF
        rw [this, List.pairwise_cons]
        refine ⟨?_, h⟩
        intro a ha
        simp only [keys, List.map_cons, List.mem_cons] at ha
        rcases ha with ha | ha
        · exact ha ▸ h₂
        · exact keyLt_trans h₂ (hc.1 a ha)
      · simp only [h₁, h₂, if_false]
        have : keys ((k', vs) :: pushBack rest k v) = k' :: keys (pushBack rest k v) := rfl
        unfold WF
        rw [this, List.pairwise_cons]
        refine ⟨?_, ih hc.2⟩
        intro a ha
        rcases (mem_keys_pushBack rest k v a).mp ha with ha | ha
        · exact ha ▸ keyLt_of_not h₂ h₁
        · exact hc.1 a ha

theorem find_eq_none_of_not_mem {m : GramMap} {p : List String} (h : p ∉ keys m) :
    find m p = none := by
  induction m with
  | nil => rfl
  | cons e rest ih =>
    obtain ⟨k', vs⟩ := e
    simp only [keys, List.map_cons, List.mem_cons, not_or] at h
    unfold find
    rw [if_neg (fun hh => h.1 hh.symm)]
    exact ih h.2

theorem find_isSome_iff (m : GramMap) (p : List String) :
    (find m p).isSome ↔ p ∈ keys m := by
  induction m with
  | nil => simp [find, keys]
  | cons e rest ih =>
    obtain ⟨k', vs⟩ := e
    unfold find
    by_cases hk : k' = p
    · simp [hk, keys]
    · simp only [hk, if_false, keys, List.map_cons, List.mem_cons]
      rw [ih]
      constructor
      · exact Or.inr
      · rintro (h | h)
        · exact absurd h.symm hk
        · exact h

theorem mem_of_find {m : GramMap} {p vs : List String} (h : find m p = some vs) :
    (p, vs) ∈ m := by
  induction m with
  | nil => simp [find] at h
  | cons e rest ih =>
    obtain ⟨k', ws⟩ := e
    unfold find at h
    by_cases hk : k' = p
    · simp only [hk, if_true, Option.some.injEq] at h
      simp [hk, h]
    · simp only [hk, if_false] at h
      exact List.mem_cons_of_mem _ (ih h)

theorem find_of_mem {m : GramMap} (hw : WF m) {p vs : List String} (h : (p, vs) ∈ m) :
    find m p = some vs := by
  induction m with
  | nil => simp at h
  | cons e rest ih =>
    obtain ⟨k', ws⟩ := e
    have hc : (∀ a ∈ keys rest, keyLt k' a) ∧ WF rest := by
      simpa [WF, keys] using hw
    unfold find
    rcases List.mem_cons.mp h with h | h
    · simp only [Prod.mk.injEq] at h
      simp [h.1, h.2]
    · have hp : p ∈ keys rest := List.mem_map.mpr ⟨(p, vs), h, rfl⟩
      have hne : k' ≠ p := fun hh => keyLt_irrefl p (hh ▸ hc.1 p hp)
      rw [if_neg hne]
      exact ih hc.2 h

theorem sufs_pushBack {m : GramMap} (h : WF m) (k : List String) (v : String)
    (p : List String) :
    sufs (pushBack m k v) p = if p = k then sufs m k ++ [v] else sufs m p := by
  induction m with
  | nil =>
    by_cases hp : p = k
    · simp [pushBack, sufs, find, hp]
    · have hp' : ¬ k = p := fun hh => hp hh.symm
      simp [pushBack, sufs, find, hp, hp']
  | cons e rest ih =>
    obtain ⟨k', vs⟩ := e
    have hc : (∀ a ∈ keys rest, keyLt k' a) ∧ WF rest := by
      simpa [WF, keys] using h
    unfold pushBack
    by_cases h₁ : k = k'
    · subst h₁
      by_cases hp : p = k
      · simp [sufs, find, hp]
      · have hp' : ¬ k = p := fun hh => hp hh.symm
        simp [sufs, find, hp, hp']
    · by_cases h₂ : keyLt k k'
      · simp only [h₁, h₂, if_false, if_true]
        have hk : k ∉ keys rest := fun hm => keyLt_irrefl k (keyLt_trans h₂ (hc.1 k hm))
        have hnone : find rest k = none := find_eq_none_of_not_mem hk
        have h₁' : ¬ k' = k := fun hh => h₁ hh.symm
        by_cases hp : p = k
        · simp [sufs, find, hp, h₁', hnone]
        · have hp' : ¬ k = p := fun hh => hp hh.symm
          simp [sufs, find, hp, hp']
      · simp only [h₁, h₂, if_false]
        have h₁' : ¬ k' = k := fun hh => h₁ hh.symm
        have ih' := ih hc.2
        by_cases hp : p = k
        · subst hp
          simp only [sufs, find, h₁', if_false, if_true] at ih' ⊢
          exact ih'
        · by_cases hq : k' = p
          · simp [sufs, find, hp, hq]
          · simp only [sufs, find, hp, hq, if_false] at ih' ⊢
            exact ih'

theorem totalLen_pushBack (m : GramMap) (k : List String) (v : String) :
    totalLen (pushBack m k v) = totalLen m + 1 := by
  induction m with
  | nil => simp [pushBack, totalLen]
  | cons e rest ih =>
    obtain ⟨k', vs⟩ := e
    unfold pushBack
    by_cases h₁ : k = k'
    · simp [h₁, totalLen]; omega
    · by_cases h₂ : keyLt k k'
      · simp [h₁, h₂, totalLen]; omega
      · simp only [h₁, h₂, if_false]
        simp only [totalLen, List.map_cons, List.sum_cons] at ih ⊢
        omega

end GramMap

/-! ## Successive insertions -/

theorem pushAll_append (m : GramMap) (a b : List (List String × String)) :
    pushAll m (a ++ b) = pushAll (pushAll m a) b := by
  simp [pushAll, List.foldl_append]

theorem wf_pushAll {m : GramMap} (h : m.WF) (gs : List (List String × String)) :
    (pushAll m gs).WF := by
  induction gs generalizing m with
  | nil => exact h
  | cons g gs ih => exact ih (GramMap.wf_pushBack h g.1 g.2)

theorem mem_keys_pushAll (m : GramMap) (gs : List (List String × String)) (p : List String) :
    p ∈ (pushAll m gs).keys ↔ p ∈ m.keys ∨ p ∈ gs.map Prod.fst := by
  induction gs generalizing m with
  | nil => simp [pushAll]
  | cons g gs ih =>
    have h := ih (m.pushBack g.1 g.2)
    simp only [pushAll, List.foldl_cons] at h ⊢
    rw [h, GramMap.mem_keys_pushBack]
    simp only [List.map_cons, List.mem_cons]
    tauto

theorem sufs_pushAll {m : GramMap} (h : m.WF) (gs : List (List String × String))
    (p : List String) :
    (pushAll m gs).sufs p = m.sufs p ++ (gs.filter (fun g => g.1 = p)).map Prod.snd := by
  induction gs generalizing m with
  | nil => simp [pushAll]
  | cons g gs ih =>
    have h' := ih (GramMap.wf_pushBack h g.1 g.2)
    simp only [pushAll, List.foldl_cons] at h' ⊢
    rw [h', GramMap.sufs_pushBack h]
    by_cases hp : p = g.1
    · subst hp
      simp
    · have hp' : ¬ g.1 = p := fun hh => hp hh.symm
      simp [hp, hp']

theorem totalLen_pushAll (m : GramMap) (gs : List (List String × String)) :
    (pushAll m gs).totalLen = m.totalLen + gs.length := by
  induction gs generalizing m with
  | nil => simp [pushAll]
  | cons g gs ih =>
    have h := ih (m.pushBack g.1 g.2)
    simp only [pushAll, List.foldl_cons] at h ⊢
    rw [h, GramMap.totalLen_pushBack]
    simp only [List.length_cons]
    omega

/-! ## Windows of the circular corpus -/

theorem circ_eq_getElem? (words : List String) (k : Nat) (h : k < words.length) :
    words[k]? = some (circ words k) := by
  unfold circ
  rw [Nat.mod_eq_of_lt h, List.getD_eq_getElem?_getD, List.getElem?_eq_getElem h]
  rfl

theorem circ_add_length (words : List String) (k : Nat) :
    circ words (k + words.length) = circ words k := by
  unfold circ
  rw [Nat.add_mod_right]

theorem window_eq (words : List String) (i n : Nat) (hi : i ≤ words.length)
    (hn : n ≤ words.length) :
    (words.drop i ++ words).take n = (List.range n).map (fun j => circ words (i + j)) := by
  apply List.ext_getElem?
  intro j
  rw [List.getElem?_take, List.getElem?_map]
  by_cases hj : j < n
  · rw [if_pos hj, List.getElem?_range hj, List.getElem?_append, List.length_drop]
    simp only [Option.map_some']
    by_cases hl : j < words.length - i
    · rw [if_pos hl, List.getElem?_drop]
      exact circ_eq_getElem? words (i + j) (by omega)
    · rw [if_neg hl]
      have h₁ : i + j = (j - (words.length - i)) + words.length := by omega
      rw [h₁, circ_add_length]
      exact circ_eq_getElem? words _ (by omega)
  · rw [if_neg hj, List.getElem?_eq_none (by simp; omega)]
    rfl

theorem window_interior (words : List String) (N i : Nat) (h : i + (N - 1) ≤ words.length) :
    (words.drop i).take (N - 1) = refWindow words N i := by
  unfold refWindow
  rw [← window_eq words i (N - 1) (by omega) (by omega), List.take_append_eq_append_take,
    List.length_drop]
  have : N - 1 - (words.length - i) = 0 := by omega
  rw [this]
  simp

theorem window_wrap (words : List String) (N i : Nat) (hi : i ≤ words.length)
    (hN : N - 1 ≤ words.length) (h : words.length ≤ i + (N - 1)) :
    words.drop i ++ words.take (N - 1 - (words.length - i)) = refWindow words N i := by
  unfold refWindow
  have h₁ : (words.drop i).take (N - 1) = words.drop i :=
    List.take_of_length_le (by rw [List.length_drop]; omega)
  have h₂ := window_eq words i (N - 1) hi hN
  rw [List.take_append_eq_append_take, List.length_drop, h₁] at h₂
  exact h₂

theorem slide_refWindow (words : List String) (N i : Nat) (hN : 2 ≤ N) :
    slide (refWindow words N i) (circ words (i + N - 1)) = refWindow words N (i + 1) := by
  obtain ⟨n, rfl⟩ : ∃ n, N = n + 2 := ⟨N - 2, by omega⟩
  unfold slide refWindow
  have h₁ : n + 2 - 1 = n + 1 := by omega
  have h₂ : i + (n + 2) - 1 = i + 1 + n := by omega
  have h₃ : ((List.range (n + 1)).map (fun j => circ words (i + j))).tail =
      (List.range n).map (fun j => circ words (i + 1 + j)) := by
    rw [List.range_succ_eq_map]
    simp only [List.map_cons, List.tail_cons, List.map_map]
    apply List.map_congr_left
    intro j _
    simp only [Function.comp]
    congr 1
    omega
  rw [h₁, h₂, h₃, List.range_succ, List.map_append]
  rfl

theorem refWindow_add_length (words : List String) (N i : Nat) :
    refWindow words N (i + words.length) = refWindow words N i := by
  unfold refWindow
  apply List.map_congr_left
  intro j _
  have : i + words.length + j = (i + j) + words.length := by omega
  rw [this, circ_add_length]

theorem length_refWindow (words : List String) (N i : Nat) :
    (refWindow words N i).length = N - 1 := by
  simp [refWindow]

/-! ## The two loops of `buildMap` -/

theorem wrapSize_natCast (n : Nat) : wrapSize (n : Int) = n := by
  simp [wrapSize]

theorem wrapSize_sub (L N : Nat) (h : N ≤ L) : wrapSize ((L : Int) - N) = L - N := by
  have : ((L : Int) - N) = ((L - N : Nat) : Int) := by omega
  rw [this, wrapSize_natCast]

theorem wrapSize_sub_succ (L N : Nat) (h : N ≤ L) :
    wrapSize ((L : Int) - N + 1) = L - N + 1 := by
  have : ((L : Int) - N + 1) = ((L - N + 1 : Nat) : Int) := by omega
  rw [this, wrapSize_natCast]

theorem vecIndex_circ (words : List String) (k : Nat) (h : k < words.length) :
    vecIndex words (k : Int) = .ok (circ words k) := by
  unfold vecIndex
  rw [if_pos (by omega), Int.toNat_ofNat, circ_eq_getElem? words k h]

theorem vecRange_interior (words : List String) (N i : Nat) (hN : 1 ≤ N)
    (h : i + (N - 1) ≤ words.length) :
    vecRange words i (i + N - 1) = .ok (refWindow words N i) := by
  unfold vecRange
  rw [if_pos ⟨by omega, by omega⟩]
  have : i + N - 1 - i = N - 1 := by omega
  rw [this, window_interior words N i h]

theorem interiorLoop_eq (words : List String) (N : Nat) (hN : 1 ≤ N)
    (hL : N ≤ words.length) (d : Nat) :
    ∀ (i fuel : Nat) (m : GramMap), i + d = words.length - N + 1 → d < fuel →
      interiorLoop words N fuel i m =
        .ok (pushAll m ((List.range' i d).map (refGram words N))) := by
  induction d with
  | zero =>
    intro i fuel m hi hf
    obtain ⟨f, rfl⟩ : ∃ f, fuel = f + 1 := ⟨fuel - 1, by omega⟩
    unfold interiorLoop
    rw [wrapSize_sub _ _ hL, if_neg (by omega)]
    rfl
  | succ d ih =>
    intro i fuel m hi hf
    obtain ⟨f, rfl⟩ : ∃ f, fuel = f + 1 := ⟨fuel - 1, by omega⟩
    unfold interiorLoop
    rw [wrapSize_sub _ _ hL, if_pos (by omega), vecRange_interior words N i hN (by omega),
      vecIndex_circ words (i + N - 1) (by omega)]
    simp only [bind, Except.bind]
    rw [ih (i + 1) f _ (by omega) (by omega), List.range'_succ]
    rfl

theorem wrapLoop_eq (words : List String) (N : Nat) (hN : 1 ≤ N)
    (hL : N ≤ words.length) (d : Nat) :
    ∀ (i fuel : Nat) (m : GramMap), i + d = words.length → words.length + 1 ≤ i + N →
      d < fuel →
      wrapLoop words N fuel i m =
        .ok (pushAll m ((List.range' i d).map (refGram words N))) := by
  induction d with
  | zero =>
    intro i fuel m hi _ hf
    obtain ⟨f, rfl⟩ : ∃ f, fuel = f + 1 := ⟨fuel - 1, by omega⟩
    unfold wrapLoop
    rw [if_neg (by omega)]
    rfl
  | succ d ih =>
    intro i fuel m hi hw hf
    obtain ⟨f, rfl⟩ : ∃ f, fuel = f + 1 := ⟨fuel - 1, by omega⟩
    have h₁ : vecRange words i words.length = .ok (words.drop i) := by
      unfold vecRange
      rw [if_pos ⟨by omega, le_refl _⟩, List.take_of_length_le (by simp)]
    have h₂ : vecRange words 0 (N - 1 - (words.length - i)) =
        .ok (words.take (N - 1 - (words.length - i))) := by
      unfold vecRange
      rw [if_pos ⟨by omega, by omega⟩]
      simp
    have h₃ : vecIndex words (((i + N - 1) % words.length : Nat) : Int) =
        .ok (circ words (i + N - 1)) := by
      rw [vecIndex_circ words _ (Nat.mod_lt _ (by omega))]
      unfold circ
      rw [Nat.mod_mod]
    unfold wrapLoop
    rw [if_pos (by omega), h₁]
    simp only [bind, Except.bind, List.length_drop]
    rw [if_pos (by omega), h₂, h₃]
    simp only []
    rw [window_wrap words N i (by omega) (by omega) (by omega),
      ih (i + 1) f _ (by omega) (by omega) (by omega), List.range'_succ]
    rfl

theorem refGrams_eq (words : List String) (N : Nat) (hL : N ≤ words.length) (hN : 1 ≤ N) :
    refGrams words N =
      (List.range' 0 (words.length - N + 1)).map (refGram words N) ++
        (List.range' (words.length - N + 1) (N - 1)).map (refGram words N) := by
  unfold refGrams
  rw [← List.map_append, List.range_eq_range']
  have := List.range'_append 0 (words.length - N + 1) (N - 1) 1
  simp only [one_mul, zero_add] at this
  rw [this]
  have h : N - 1 + (words.length - N + 1) = words.length := by omega
  rw [h]
  rfl

/-- Under `1 ≤ N ≤ len(words)` the two loops insert the `len(words)` circular n-grams in
ascending order of start index. -/
theorem buildMap_eq_pushAll (words : List String) (N : Nat) (hN : 1 ≤ N)
    (hL : N ≤ words.length) (m : GramMap) :
    buildMap words N m = .ok (pushAll m (refGrams words N)) := by
  unfold buildMap
  rw [interiorLoop_eq words N hN hL (words.length - N + 1) 0 _ m (by omega) (by omega)]
  simp only [bind, Except.bind]
  rw [wrapSize_sub_succ _ _ hL,
    wrapLoop_eq words N hN hL (N - 1) (words.length - N + 1) _ _ (by omega) (by omega)
      (by omega),
    refGrams_eq words N hL hN, pushAll_append]

/-! ## Properties of the built mapping -/

theorem wf_nil : GramMap.WF [] := by
  simp [GramMap.WF, GramMap.keys]

theorem atKey_eq_ok_iff (m : GramMap) (p vs : List String) :
    m.atKey p = .ok vs ↔ m.find p = some vs := by
  unfold GramMap.atKey
  cases h : m.find p with
  | none => simp
  | some ws => simp

theorem find_eq_some_sufs {m : GramMap} {p : List String} (h : p ∈ m.keys) :
    m.find p = some (m.sufs p) := by
  have h₁ := (GramMap.find_isSome_iff m p).mpr h
  obtain ⟨vs, hvs⟩ := Option.isSome_iff_exists.mp h₁
  simp [GramMap.sufs, hvs]

theorem map_fst_refGrams (tokens : List String) (N : Nat) (p : List String) :
    p ∈ (refGrams tokens N).map Prod.fst ↔
      ∃ i, i < tokens.length ∧ refWindow tokens N i = p := by
  simp [refGrams]

theorem filter_refGrams (tokens : List String) (N : Nat) (p : List String) :
    ((refGrams tokens N).filter (fun g => g.1 = p)).map Prod.snd = refSuffixes tokens N p := by
  unfold refGrams refSuffixes
  rw [List.filter_map, List.map_map]
  rfl

theorem mem_refSuffixes {tokens : List String} {N : Nat} {p : List String} {s : String}
    (h : s ∈ refSuffixes tokens N p) :
    ∃ i, i < tokens.length ∧ refWindow tokens N i = p ∧ s = circ tokens (i + N - 1) := by
  unfold refSuffixes at h
  obtain ⟨i, hi, rfl⟩ := List.mem_map.mp h
  rw [List.mem_filter, List.mem_range] at hi
  exact ⟨i, hi.1, by simpa using hi.2, rfl⟩

theorem refSuffixes_ne_nil {tokens : List String} {N i : Nat} (hi : i < tokens.length) :
    refSuffixes tokens N (refWindow tokens N i) ≠ [] := by
  unfold refSuffixes
  intro h
  have hm : i ∈ (List.range tokens.length).filter
      (fun i' => refWindow tokens N i' = refWindow tokens N i) := by
    rw [List.mem_filter, List.mem_range]
    exact ⟨hi, by simp⟩
  rw [List.map_eq_nil_iff] at h
  rw [h] at hm
  simp at hm

/-- The successor of a circular start index is again a circular start index. -/
theorem refWindow_succ_start (tokens : List String) (N i : Nat) (hi : i < tokens.length) :
    ∃ i', i' < tokens.length ∧ refWindow tokens N i' = refWindow tokens N (i + 1) := by
  by_cases h : i + 1 < tokens.length
  · exact ⟨i + 1, h, rfl⟩
  · refine ⟨0, by omega, ?_⟩
    have : i + 1 = 0 + tokens.length := by omega
    rw [this, refWindow_add_length]

/-- Entries of a mapping after successive insertions. -/
theorem mem_pushAll {m : GramMap} (h : m.WF) (gs : List (List String × String))
    {e : List String × List String} (he : e ∈ pushAll m gs) :
    e.2 = m.sufs e.1 ++ (gs.filter (fun g => g.1 = e.1)).map Prod.snd := by
  have h₁ := GramMap.find_of_mem (wf_pushAll h gs) (show (e.1, e.2) ∈ pushAll m gs from he)
  have h₂ := sufs_pushAll h gs e.1
  simp only [GramMap.sufs, h₁, Option.getD_some] at h₂
  exact h₂

/-- Cumulative building keeps the invariant that recorded suffixes slide onto keys. -/
theorem noDangling_pushAll_refGrams (tokens : List String) (N : Nat) (hN : 2 ≤ N)
    {m : GramMap} (hw : m.WF) (hd : NoDangling m) :
    NoDangling (pushAll m (refGrams tokens N)) := by
  intro e he s hs
  rw [mem_pushAll hw _ he, filter_refGrams, List.mem_append] at hs
  rw [mem_keys_pushAll]
  rcases hs with hs | hs
  · left
    by_cases hk : e.1 ∈ m.keys
    · have hf := find_eq_some_sufs hk
      exact hd (e.1, m.sufs e.1) (GramMap.mem_of_find hf) s hs
    · simp [GramMap.sufs, GramMap.find_eq_none_of_not_mem hk] at hs
  · right
    obtain ⟨i, hi, hwin, rfl⟩ := mem_refSuffixes hs
    rw [← hwin, slide_refWindow tokens N i hN, map_fst_refGrams]
    exact refWindow_succ_start tokens N i hi

theorem noDangling_nil : NoDangling [] := by
  intro e he
  simp at he

theorem nonempty_pushBack {m : GramMap} (h : ∀ e ∈ m, e.2 ≠ []) (k : List String)
    (v : String) : ∀ e ∈ m.pushBack k v, e.2 ≠ [] := by
  induction m with
  | nil =>
    intro e he
    simp only [GramMap.pushBack, List.mem_singleton] at he
    simp [he]
  | cons e₀ rest ih =>
    obtain ⟨k', vs⟩ := e₀
    have hr : ∀ e ∈ rest, e.2 ≠ [] := fun e he => h e (List.mem_cons_of_mem _ he)
    intro e he
    unfold GramMap.pushBack at he
    by_cases h₁ : k = k'
    · simp only [h₁, if_true, List.mem_cons] at he
      rcases he with he | he
      · simp [he]
      · exact hr e he
    · by_cases h₂ : keyLt k k'
      · simp only [h₁, h₂, if_false, if_true, List.mem_cons] at he
        rcases he with he | he | he
        · simp [he]
        · exact h e (he ▸ List.mem_cons_self _ _)
        · exact hr e he
      · simp only [h₁, h₂, if_false, List.mem_cons] at he
        rcases he with he | he
        · exact h e (he ▸ List.mem_cons_self _ _)
        · exact ih hr e he

theorem nonempty_pushAll {m : GramMap} (h : ∀ e ∈ m, e.2 ≠ [])
    (gs : List (List String × String)) : ∀ e ∈ pushAll m gs, e.2 ≠ [] := by
  induction gs generalizing m with
  | nil => exact h
  | cons g gs ih => exact ih (nonempty_pushBack h g.1 g.2)

/-! ## The generator -/

theorem emit_snoc (ss : String) (out : List String) (w : String) :
    emit ss (out ++ [w]) = emit ss out ++ w ++ " " := by
  simp [emit, List.foldl_append]

theorem emit_eq_join (ws : List String) :
    emit "" ws = String.join (ws.map (fun w => w ++ " ")) := by
  unfold emit String.join
  rw [List.foldl_map]
  congr 1
  funext s w
  exact String.append_assoc s w " "

theorem vecIndex_ok_mem {α : Type} {v : List α} {i : Int} {x : α}
    (h : vecIndex v i = .ok x) : x ∈ v := by
  unfold vecIndex at h
  by_cases hi : 0 ≤ i
  · rw [if_pos hi] at h
    cases hx : v[i.toNat]? with
    | none => simp [hx] at h
    | some y =>
      simp only [hx, Except.ok.injEq] at h
      subst h
      exact List.mem_iff_getElem?.mpr ⟨_, hx⟩
  · simp [hi] at h

theorem vecIndex_inRange {α : Type} {v : List α} (hv : v ≠ []) {rnd : Nat → Int → Int → Int}
    (hr : InRange rnd) (c : Nat) :
    ∃ x, vecIndex v (rnd c 0 ((v.length : Int) - 1)) = .ok x ∧ x ∈ v := by
  have hlen : 0 < v.length := List.length_pos.mpr hv
  obtain ⟨h₀, h₁⟩ := hr c 0 ((v.length : Int) - 1) (by omega)
  have hlt : (rnd c 0 ((v.length : Int) - 1)).toNat < v.length := by omega
  have hx : vecIndex v (rnd c 0 ((v.length : Int) - 1)) =
      .ok (v[(rnd c 0 ((v.length : Int) - 1)).toNat]) := by
    unfold vecIndex
    rw [if_pos h₀, List.getElem?_eq_getElem hlt]
  exact ⟨_, hx, vecIndex_ok_mem hx⟩

theorem vecIndex_eq_ok {α : Type} {v : List α} {i : Int} {x : α}
    (h : vecIndex v i = .ok x) : 0 ≤ i ∧ v[i.toNat]? = some x := by
  unfold vecIndex at h
  by_cases hi : 0 ≤ i
  · rw [if_pos hi] at h
    cases hx : v[i.toNat]? with
    | none => simp [hx] at h
    | some y =>
      simp only [hx, Except.ok.injEq] at h
      exact ⟨hi, by rw [h]⟩
  · simp [hi] at h

theorem map_eq_ok {α β : Type} {f : α → β} {x : Except Fault α} {s : β}
    (h : x.map f = .ok s) : ∃ w, x = .ok w ∧ s = f w := by
  cases x with
  | error e => simp [Except.map] at h
  | ok w =>
    simp only [Except.map, Except.ok.injEq] at h
    exact ⟨w, rfl, h.symm⟩

theorem atKey_of_not_mem {m : GramMap} {cp : List String} (h : cp ∉ m.keys) :
    m.atKey cp = .error .keyNotFound := by
  unfold GramMap.atKey
  rw [GramMap.find_eq_none_of_not_mem h]

theorem mem_keys_of_atKey {m : GramMap} {cp vs : List String} (h : m.atKey cp = .ok vs) :
    cp ∈ m.keys := by
  rw [atKey_eq_ok_iff] at h
  rw [← GramMap.find_isSome_iff, h]
  rfl

theorem split_last_window {out cp : List String} {n : Nat}
    (hdrop : out.drop (out.length - n) = cp) (hle : n ≤ out.length) :
    ∃ pre, out = pre ++ cp ∧ pre.length + n = out.length := by
  refine ⟨out.take (out.length - n), ?_, ?_⟩
  · rw [← hdrop, List.take_append_drop]
  · rw [List.length_take]
    omega

/-- Window lengths are kept by cumulative building. -/
theorem keyLength_pushAll_refGrams (tokens : List String) (N : Nat) {m : GramMap}
    (h : ∀ e ∈ m, e.1.length = N - 1) :
    ∀ e ∈ pushAll m (refGrams tokens N), e.1.length = N - 1 := by
  intro e he
  have hk : e.1 ∈ (pushAll m (refGrams tokens N)).keys := List.mem_map.mpr ⟨e, he, rfl⟩
  rw [mem_keys_pushAll, map_fst_refGrams] at hk
  rcases hk with hk | ⟨i, _, hi⟩
  · obtain ⟨e', he', heq⟩ := List.mem_map.mp hk
    rw [← heq]
    exact h e' he'
  · rw [← hi, length_refWindow]

theorem pushAll_refGrams_ne_nil (tokens : List String) (N : Nat) (m : GramMap)
    (hL : 0 < tokens.length) : pushAll m (refGrams tokens N) ≠ [] := by
  intro h
  have hk : refWindow tokens N 0 ∈ (pushAll m (refGrams tokens N)).keys := by
    rw [mem_keys_pushAll, map_fst_refGrams]
    exact Or.inr ⟨0, hL, rfl⟩
  rw [h] at hk
  simp [GramMap.keys] at hk

/-! ## The states of the generator loop -/

theorem genState_succ (m : GramMap) (rnd : Nat → Int → Int → Int) (n c : Nat)
    (cp out : List String) :
    genState m rnd (n + 1) c cp out =
      (m.atKey cp).bind (fun vs =>
        (vecIndex vs (rnd c 0 ((vs.length : Int) - 1))).bind (fun w =>
          match cp with
          | [] => .error .outOfRange
          | _ :: rest => genState m rnd n (c + 1) (rest ++ [w]) (out ++ [w]))) := by
  rfl

theorem genState_add (m : GramMap) (rnd : Nat → Int → Int → Int) (a b : Nat) :
    ∀ (c : Nat) (cp out : List String),
      genState m rnd (a + b) c cp out =
        (genState m rnd a c cp out).bind (fun st => genState m rnd b (c + a) st.1 st.2) := by
  induction a with
  | zero =>
    intro c cp out
    simp [genState, Except.bind]
  | succ a ih =>
    intro c cp out
    have h : a + 1 + b = (a + b) + 1 := by omega
    rw [h, genState_succ, genState_succ]
    cases m.atKey cp with
    | error e => rfl
    | ok suffixes =>
      simp only [Except.bind]
      cases vecIndex suffixes (rnd c 0 ((suffixes.length : Int) - 1)) with
      | error e => rfl
      | ok nextWord =>
        simp only []
        cases cp with
        | nil => rfl
        | cons x rest =>
          simp only []
          rw [ih]
          have h₂ : c + 1 + a = c + (a + 1) := by omega
          rw [h₂]
          rfl

/-- An iteration started on a window that is not a key throws from `map::at`. -/
theorem genState_succ_of_not_mem (m : GramMap) (rnd : Nat → Int → Int → Int) (b c : Nat)
    {cp : List String} (out : List String) (h : cp ∉ m.keys) :
    genState m rnd (b + 1) c cp out = .error .keyNotFound := by
  rw [genState_succ, atKey_of_not_mem h]
  rfl

/-- What one successful iteration does. -/
theorem genState_succ_ok {m : GramMap} {rnd : Nat → Int → Int → Int} {b c : Nat}
    {cp out : List String} {st : List String × List String}
    (h : genState m rnd (b + 1) c cp out = .ok st) :
    ∃ vs w a rest, m.atKey cp = .ok vs ∧
      vecIndex vs (rnd c 0 ((vs.length : Int) - 1)) = .ok w ∧ cp = a :: rest ∧
      genState m rnd b (c + 1) (rest ++ [w]) (out ++ [w]) = .ok st := by
  unfold genState at h
  cases hat : m.atKey cp with
  | error e => simp [hat, bind, Except.bind] at h
  | ok vs =>
    rw [hat] at h
    simp only [bind, Except.bind] at h
    cases hvi : vecIndex vs (rnd c 0 ((vs.length : Int) - 1)) with
    | error e => simp [hvi] at h
    | ok w =>
      rw [hvi] at h
      simp only [] at h
      cases cp with
      | nil => simp at h
      | cons a rest => exact ⟨vs, w, a, rest, rfl, hvi, rfl, h⟩

/-- The loop only appends to the words written, one word per iteration. -/
theorem genState_out (m : GramMap) (rnd : Nat → Int → Int → Int) (n : Nat) :
    ∀ (c : Nat) (cp out : List String) (st : List String × List String),
      genState m rnd n c cp out = .ok st → ∃ ws, st.2 = out ++ ws ∧ ws.length = n := by
  induction n with
  | zero =>
    intro c cp out st h
    simp only [genState, Except.ok.injEq] at h
    subst h
    exact ⟨[], by simp, rfl⟩
  | succ n ih =>
    intro c cp out st h
    obtain ⟨vs, w, a, rest, _, _, _, hrec⟩ := genState_succ_ok h
    obtain ⟨ws, hws, hlen⟩ := ih _ _ _ _ hrec
    exact ⟨w :: ws, by rw [hws]; simp, by simp [hlen]⟩

theorem walk_add (m : GramMap) (rnd : Nat → Int → Int → Int) (a b : Nat) :
    walk m rnd (a + b) =
      (walk m rnd a).bind (fun st => genState m rnd b (1 + a) st.1 st.2) := by
  simp only [walk, bind, Except.bind]
  cases vecIndex m.keys (rnd 0 0 ((m.keys.length : Int) - 1)) with
  | error e => rfl
  | ok cp => exact genState_add m rnd a b 1 cp cp

/-- A successful walk: the start key is `keys[randomIndex]` and the loop ran from it. -/
theorem walk_ok {m : GramMap} {rnd : Nat → Int → Int → Int} {n : Nat}
    {st : List String × List String} (h : walk m rnd n = .ok st) :
    ∃ key ws, vecIndex m.keys (rnd 0 0 ((m.keys.length : Int) - 1)) = .ok key ∧
      genState m rnd n 1 key key = .ok st ∧ st.2 = key ++ ws ∧ ws.length = n := by
  simp only [walk, bind, Except.bind] at h
  cases hcp : vecIndex m.keys (rnd 0 0 ((m.keys.length : Int) - 1)) with
  | error e => simp [hcp] at h
  | ok key =>
    rw [hcp] at h
    simp only [] at h
    obtain ⟨ws, hws, hlen⟩ := genState_out m rnd n 1 key key st h
    exact ⟨key, ws, rfl, h, hws, hlen⟩

/-- A walk that reaches `a + b` iterations has reached `a` iterations. -/
theorem walk_prefix_ok {m : GramMap} {rnd : Nat → Int → Int → Int} {a b : Nat}
    {st : List String × List String} (h : walk m rnd (a + b) = .ok st) :
    ∃ st', walk m rnd a = .ok st' ∧ genState m rnd b (1 + a) st'.1 st'.2 = .ok st := by
  rw [walk_add] at h
  cases hw : walk m rnd a with
  | error e => simp [hw, Except.bind] at h
  | ok st' =>
    rw [hw] at h
    exact ⟨st', rfl, h⟩

theorem walk_of_vecIndex {m : GramMap} {rnd : Nat → Int → Int → Int} {key : List String}
    (h : vecIndex m.keys (rnd 0 0 ((m.keys.length : Int) - 1)) = .ok key) (n : Nat) :
    walk m rnd n = genState m rnd n 1 key key := by
  simp only [walk, bind, Except.bind]
  rw [h]

/-- On a mapping with non-empty keys, non-empty suffix lists and no dangling window, the
iterations started on a key all succeed and write one word each. -/
theorem genState_ok {m : GramMap} {rnd : Nat → Int → Int → Int}
    (hk : ∀ e ∈ m, e.1 ≠ []) (hs : ∀ e ∈ m, e.2 ≠ []) (hd : NoDangling m) (hr : InRange rnd)
    (n : Nat) :
    ∀ (c : Nat) (cp out : List String), cp ∈ m.keys →
      ∃ cp' ws, genState m rnd n c cp out = .ok (cp', out ++ ws) ∧ ws.length = n := by
  induction n with
  | zero =>
    intro c cp out _
    exact ⟨cp, [], by simp [genState], rfl⟩
  | succ n ih =>
    intro c cp out hcp
    have hf := find_eq_some_sufs hcp
    have hmem := GramMap.mem_of_find hf
    obtain ⟨w, hw, hwm⟩ := vecIndex_inRange (hs _ hmem) hr c
    have hne : cp ≠ [] := hk _ hmem
    obtain ⟨a, rest, rfl⟩ := List.exists_cons_of_ne_nil hne
    have hnext : rest ++ [w] ∈ m.keys := hd _ hmem w hwm
    obtain ⟨cp', ws, hws, hlen⟩ := ih (c + 1) (rest ++ [w]) (out ++ [w]) hnext
    refine ⟨cp', w :: ws, ?_, by simp [hlen]⟩
    rw [genState_succ, (atKey_eq_ok_iff _ _ _).mpr hf]
    simp only [Except.bind]
    rw [hw]
    simp only []
    rw [hws]
    simp

/-- On a non-empty mapping with keys of length `N - 1 ≥ 1`, non-empty suffix lists and no
dangling window, every number of iterations is reached, with one word written by each. -/
theorem walk_ok_of_invariants {m : GramMap} {rnd : Nat → Int → Int → Int} (N : Nat)
    (hne : m ≠ []) (hk : ∀ e ∈ m, e.1.length = N - 1) (hN : 2 ≤ N) (hs : ∀ e ∈ m, e.2 ≠ [])
    (hd : NoDangling m) (hr : InRange rnd) (n : Nat) :
    ∃ st, walk m rnd n = .ok st ∧ st.2.length = N - 1 + n := by
  have hkeys : m.keys ≠ [] := by
    simpa [GramMap.keys] using hne
  obtain ⟨key, hkey, hmem⟩ := vecIndex_inRange hkeys hr 0
  have hk' : ∀ e ∈ m, e.1 ≠ [] := by
    intro e he h
    have := hk e he
    rw [h] at this
    simp at this
    omega
  obtain ⟨cp', ws, hws, hlen⟩ := genState_ok hk' hs hd hr n 1 key key hmem
  refine ⟨(cp', key ++ ws), ?_, ?_⟩
  · rw [walk_of_vecIndex hkey, hws]
  · obtain ⟨e, he, rfl⟩ := List.mem_map.mp hmem
    simp only [List.length_append]
    rw [hk e he, hlen]

/-- Every word written by the iterations is a recorded suffix of the window before it. -/
theorem genState_sound (m : GramMap) (rnd : Nat → Int → Int → Int) (N : Nat) (n : Nat) :
    ∀ (c : Nat) (cp out : List String) (st : List String × List String),
      cp.length = N - 1 → out.drop (out.length - (N - 1)) = cp → N - 1 ≤ out.length →
      genState m rnd n c cp out = .ok st →
      (∃ ws, st.2 = out ++ ws) ∧
        ∀ k, out.length ≤ k → k < st.2.length →
          ∃ vs w, m.find ((st.2.drop (k - (N - 1))).take (N - 1)) = some vs ∧
            st.2[k]? = some w ∧ w ∈ vs := by
  induction n with
  | zero =>
    intro c cp out st _ _ _ h
    simp only [genState, Except.ok.injEq] at h
    subst h
    exact ⟨⟨[], by simp⟩, fun k h₁ h₂ => absurd h₂ (Nat.not_lt.mpr h₁)⟩
  | succ n ih =>
    intro c cp out st hlen hdrop hle h
    obtain ⟨vs, w, a, rest, hat, hvi, hcp, hrec⟩ := genState_succ_ok h
    subst hcp
    obtain ⟨pre, hpre, hplen⟩ := split_last_window hdrop hle
    have hrl : rest.length + 1 = N - 1 := by simpa using hlen
    have hout' : out ++ [w] = (pre ++ [a]) ++ (rest ++ [w]) := by
      rw [hpre]; simp
    have hdrop' : (out ++ [w]).drop ((out ++ [w]).length - (N - 1)) = rest ++ [w] := by
      have hl : (out ++ [w]).length - (N - 1) = pre.length + 1 := by
        simp only [List.length_append, List.length_singleton]
        omega
      rw [hl, hout']
      exact List.drop_left' (by simp)
    obtain ⟨⟨ws, hws⟩, hP⟩ := ih (c + 1) (rest ++ [w]) (out ++ [w]) st
      (by simp; omega) hdrop' (by simp; omega) hrec
    refine ⟨⟨w :: ws, by rw [hws]; simp⟩, ?_⟩
    intro k hk₁ hk₂
    by_cases hk : k = out.length
    · refine ⟨vs, w, ?_, ?_, vecIndex_ok_mem hvi⟩
      · have hres : st.2 = pre ++ ((a :: rest) ++ (w :: ws)) := by
          rw [hws, hpre]; simp
        have hkn : k - (N - 1) = pre.length := by omega
        rw [hkn, hres, List.drop_left' rfl, List.take_left' hlen]
        exact (atKey_eq_ok_iff _ _ _).mp hat
      · rw [hws, hk, List.append_assoc, List.getElem?_append_right (le_refl _)]
        simp
    · exact hP k (by simp; omega) hk₂

/-! ## The counter of the loop of `generateText` -/

theorem genWordsLoop_succ (m : GramMap) (rnd : Nat → Int → Int → Int) (tw f i c : Nat)
    (cp out : List String) :
    genWordsLoop m rnd tw (f + 1) i c cp out =
      if i ≤ tw then
        (m.atKey cp).bind (fun vs =>
          (vecIndex vs (rnd c 0 ((vs.length : Int) - 1))).bind (fun w =>
            match cp with
            | [] => .error .outOfRange
            | _ :: rest =>
              if tw ≤ intMax ∧ i = intMax then .error .overflow
              else genWordsLoop m rnd tw f (i + 1) (c + 1) (rest ++ [w]) (out ++ [w])))
      else .ok out := by
  rfl

theorem genLoop_succ (m : GramMap) (rnd : Nat → Int → Int → Int) (tw f i c : Nat)
    (cp : List String) (ss : String) :
    genLoop m rnd tw (f + 1) i c cp ss =
      if i ≤ tw then
        (m.atKey cp).bind (fun vs =>
          (vecIndex vs (rnd c 0 ((vs.length : Int) - 1))).bind (fun w =>
            match cp with
            | [] => .error .outOfRange
            | _ :: rest =>
              if tw ≤ intMax ∧ i = intMax then .error .overflow
              else genLoop m rnd tw f (i + 1) (c + 1) (rest ++ [w]) (ss ++ w ++ " ")))
      else .ok ss := by
  rfl

/-- The loop with its counter: `tw + 1 - i` iterations of the body, and the fault
`overflow` at the last `++i` when at least one iteration ran and `tw = INT_MAX`. -/
theorem genWordsLoop_eq_genState (m : GramMap) (rnd : Nat → Int → Int → Int) (tw : Nat)
    (n : Nat) :
    ∀ (fuel i c : Nat) (cp out : List String), n = tw + 1 - i → n < fuel →
      genWordsLoop m rnd tw fuel i c cp out =
        (genState m rnd n c cp out).bind (fun st =>
          if 1 ≤ n ∧ tw = intMax then .error .overflow else .ok st.2) := by
  induction n with
  | zero =>
    intro fuel i c cp out hn hf
    obtain ⟨f, rfl⟩ : ∃ f, fuel = f + 1 := ⟨fuel - 1, by omega⟩
    rw [genWordsLoop_succ, if_neg (by omega)]
    have h0 : ¬ (1 ≤ 0 ∧ tw = intMax) := fun h => absurd h.1 (by omega)
    simp only [genState, Except.bind, if_neg h0]
  | succ n ih =>
    intro fuel i c cp out hn hf
    obtain ⟨f, rfl⟩ : ∃ f, fuel = f + 1 := ⟨fuel - 1, by omega⟩
    have hi : i ≤ tw := by omega
    rw [genWordsLoop_succ, if_pos hi, genState_succ]
    cases m.atKey cp with
    | error e => rfl
    | ok vs =>
      simp only [Except.bind]
      cases vecIndex vs (rnd c 0 ((vs.length : Int) - 1)) with
      | error e => rfl
      | ok w =>
        simp only []
        cases cp with
        | nil => rfl
        | cons a rest =>
          simp only []
          by_cases hov : tw ≤ intMax ∧ i = intMax
          · have hn0 : n = 0 := by omega
            subst hn0
            have h1 : 1 ≤ 0 + 1 ∧ tw = intMax := ⟨by omega, by omega⟩
            rw [if_pos hov]
            simp only [genState, if_pos h1]
          · rw [if_neg hov, ih f (i + 1) (c + 1) _ _ (by omega) (by omega)]
            by_cases ht : tw = intMax
            · have hi' : i ≠ intMax := fun h => hov ⟨by omega, h⟩
              have h1 : 1 ≤ n ∧ tw = intMax := ⟨by omega, ht⟩
              have h2 : 1 ≤ n + 1 ∧ tw = intMax := ⟨by omega, ht⟩
              simp only [if_pos h1, if_pos h2]
              rfl
            · have h1 : ¬ (1 ≤ n ∧ tw = intMax) := fun h => ht h.2
              have h2 : ¬ (1 ≤ n + 1 ∧ tw = intMax) := fun h => ht h.2
              simp only [if_neg h1, if_neg h2]
              rfl

theorem genLoop_eq_map (m : GramMap) (rnd : Nat → Int → Int → Int) (tw : Nat) (fuel : Nat) :
    ∀ (i c : Nat) (cp out : List String),
      genLoop m rnd tw fuel i c cp (emit "" out) =
        (genWordsLoop m rnd tw fuel i c cp out).map (emit "") := by
  induction fuel with
  | zero =>
    intro i c cp out
    rfl
  | succ f ih =>
    intro i c cp out
    rw [genLoop_succ, genWordsLoop_succ]
    by_cases hi : i ≤ tw
    · rw [if_pos hi, if_pos hi]
      cases m.atKey cp with
      | error e => rfl
      | ok vs =>
        simp only [Except.bind]
        cases vecIndex vs (rnd c 0 ((vs.length : Int) - 1)) with
        | error e => rfl
        | ok w =>
          simp only []
          cases cp with
          | nil => rfl
          | cons a rest =>
            simp only []
            by_cases hov : tw ≤ intMax ∧ i = intMax
            · rw [if_pos hov, if_pos hov]
              rfl
            · rw [if_neg hov, if_neg hov, ← emit_snoc, ih]
    · rw [if_neg hi, if_neg hi]
      rfl

theorem generateText_eq_map (m : GramMap) (N totalWords : Nat) (rnd : Nat → Int → Int → Int) :
    generateText m N totalWords rnd = (generateWords m N totalWords rnd).map (emit "") := by
  simp only [generateText, generateWords, bind, Except.bind]
  cases vecIndex m.keys (rnd 0 0 ((m.keys.length : Int) - 1)) with
  | error e => rfl
  | ok cp => exact genLoop_eq_map m rnd totalWords _ N 1 cp cp

/-- A run of `generateWords` is the walk of `totalWords + 1 - N` iterations, followed by
the overflow of the last `++i` when there was an iteration and `totalWords = INT_MAX`. -/
theorem generateWords_eq_walk (m : GramMap) (N totalWords : Nat)
    (rnd : Nat → Int → Int → Int) :
    generateWords m N totalWords rnd =
      (walk m rnd (totalWords + 1 - N)).bind (fun st =>
        if 1 ≤ totalWords + 1 - N ∧ totalWords = intMax then .error .overflow
        else .ok st.2) := by
  simp only [generateWords, walk, bind, Except.bind]
  cases vecIndex m.keys (rnd 0 0 ((m.keys.length : Int) - 1)) with
  | error e => rfl
  | ok cp =>
    exact genWordsLoop_eq_genState m rnd totalWords (totalWords + 1 - N) _ N 1 cp cp rfl
      (by omega)

/-- A successful run went through the walk of `totalWords + 1 - N` iterations. -/
theorem generateWords_ok_walk {m : GramMap} {N totalWords : Nat}
    {rnd : Nat → Int → Int → Int} {ws : List String}
    (h : generateWords m N totalWords rnd = .ok ws) :
    ∃ st, walk m rnd (totalWords + 1 - N) = .ok st ∧ ws = st.2 := by
  rw [generateWords_eq_walk] at h
  cases hw : walk m rnd (totalWords + 1 - N) with
  | error e => simp [hw, Except.bind] at h
  | ok st =>
    rw [hw] at h
    simp only [Except.bind] at h
    by_cases hov : 1 ≤ totalWords + 1 - N ∧ totalWords = intMax
    · rw [if_pos hov] at h
      simp at h
    · rw [if_neg hov] at h
      simp only [Except.ok.injEq] at h
      exact ⟨st, rfl, h.symm⟩

/-- Below `INT_MAX` a walk that reaches its last iteration is a successful run. -/
theorem generateWords_of_walk {m : GramMap} {N totalWords : Nat}
    {rnd : Nat → Int → Int → Int} {st : List String × List String}
    (h : walk m rnd (totalWords + 1 - N) = .ok st) (ht : totalWords ≠ intMax) :
    generateWords m N totalWords rnd = .ok st.2 := by
  rw [generateWords_eq_walk, h]
  have hov : ¬ (1 ≤ totalWords + 1 - N ∧ totalWords = intMax) := fun hh => ht hh.2
  simp only [Except.bind, if_neg hov]

/-- At `totalWords = INT_MAX` a walk that reaches its last iteration ends in the overflow
of the counter. -/
theorem generateWords_overflow {m : GramMap} {N : Nat}
    {rnd : Nat → Int → Int → Int} {st : List String × List String}
    (h : walk m rnd (intMax + 1 - N) = .ok st) (hN : N ≤ intMax) :
    generateWords m N intMax rnd = .error .overflow := by
  have hov : 1 ≤ intMax + 1 - N ∧ intMax = intMax := ⟨by omega, rfl⟩
  rw [generateWords_eq_walk, h]
  show (if 1 ≤ intMax + 1 - N ∧ intMax = intMax then Except.error Fault.overflow
    else Except.ok st.2) = Except.error Fault.overflow
  rw [if_pos hov]

/-- Words written by a run of `generateWords` below `INT_MAX` under the invariants of
`genState_ok`. -/
theorem generateWords_ok {m : GramMap} {rnd : Nat → Int → Int → Int} (N totalWords : Nat)
    (hne : m ≠ []) (hk : ∀ e ∈ m, e.1.length = N - 1) (hN : 2 ≤ N) (hs : ∀ e ∈ m, e.2 ≠ [])
    (hd : NoDangling m) (hr : InRange rnd) (ht : totalWords ≠ intMax) :
    ∃ ws, generateWords m N totalWords rnd = .ok ws ∧
      ws.length = N - 1 + (totalWords + 1 - N) := by
  obtain ⟨st, hst, hlen⟩ :=
    walk_ok_of_invariants N hne hk hN hs hd hr (totalWords + 1 - N)
  exact ⟨st.2, generateWords_of_walk hst ht, hlen⟩

/-- At `totalWords = INT_MAX`, under the invariants of `genState_ok`, every iteration
succeeds and the run ends in the overflow of the counter: no text is returned. -/
theorem generateText_intMax (m : GramMap) (rnd : Nat → Int → Int → Int) (N : Nat)
    (hne : m ≠ []) (hk : ∀ e ∈ m, e.1.length = N - 1) (hN : 2 ≤ N) (hN' : N ≤ intMax)
    (hs : ∀ e ∈ m, e.2 ≠ []) (hd : NoDangling m) (hr : InRange rnd) :
    generateWords m N intMax rnd = .error .overflow ∧
      generateText m N intMax rnd = .error .overflow := by
  obtain ⟨st, hst, _⟩ := walk_ok_of_invariants N hne hk hN hs hd hr (intMax + 1 - N)
  have h := generateWords_overflow hst hN'
  refine ⟨h, ?_⟩
  rw [generateText_eq_map, h]
  rfl

/-! ## Single steps of the two loops of `buildMap` -/

theorem interiorLoop_step (words : List String) (N : Nat) (hN : 1 ≤ N)
    (hL : N ≤ words.length) (f i : Nat) (m : GramMap) (hi : i + N ≤ words.length) :
    interiorLoop words N (f + 1) i m =
      interiorLoop words N f (i + 1)
        (m.pushBack (refWindow words N i) (circ words (i + N - 1))) := by
  conv_lhs => unfold interiorLoop
  rw [wrapSize_sub _ _ hL, if_pos (by omega), vecRange_interior words N i hN (by omega),
    vecIndex_circ words (i + N - 1) (by omega)]
  rfl

theorem wrapLoop_step (words : List String) (N : Nat) (hN : 1 ≤ N)
    (hL : N ≤ words.length) (f i : Nat) (m : GramMap) (hi : i < words.length)
    (hw : words.length + 1 ≤ i + N) :
    wrapLoop words N (f + 1) i m =
      wrapLoop words N f (i + 1)
        (m.pushBack (refWindow words N i) (circ words (i + N - 1))) := by
  have h₁ : vecRange words i words.length = .ok (words.drop i) := by
    unfold vecRange
    rw [if_pos ⟨by omega, le_refl _⟩, List.take_of_length_le (by simp)]
  have h₂ : vecRange words 0 (N - 1 - (words.length - i)) =
      .ok (words.take (N - 1 - (words.length - i))) := by
    unfold vecRange
    rw [if_pos ⟨by omega, by omega⟩]
    simp
  have h₃ : vecIndex words (((i + N - 1) % words.length : Nat) : Int) =
      .ok (circ words (i + N - 1)) := by
    rw [vecIndex_circ words _ (Nat.mod_lt _ (by omega))]
    unfold circ
    rw [Nat.mod_mod]
  conv_lhs => unfold wrapLoop
  rw [if_pos hi, h₁]
  simp only [bind, Except.bind, List.length_drop]
  rw [if_pos (by omega), h₂, h₃]
  simp only []
  rw [window_wrap words N i (by omega) (by omega) (by omega)]

/-- With fuel for at most `L - N + 1 - i` guard evaluations the first loop does not finish. -/
theorem interiorLoop_fuel (words : List String) (N : Nat) (hN : 1 ≤ N)
    (hL : N ≤ words.length) (f : Nat) :
    ∀ (i : Nat) (m : GramMap), i + f ≤ words.length - N + 1 →
      interiorLoop words N f i m = .error .fuel := by
  induction f with
  | zero =>
    intro i m _
    rfl
  | succ f ih =>
    intro i m hi
    rw [interiorLoop_step words N hN hL f i m (by omega)]
    exact ih (i + 1) _ (by omega)

/-- With fuel for at most `L - i` guard evaluations the second loop does not finish. -/
theorem wrapLoop_fuel (words : List String) (N : Nat) (hN : 1 ≤ N)
    (hL : N ≤ words.length) (f : Nat) :
    ∀ (i : Nat) (m : GramMap), words.length + 1 ≤ i + N → i + f ≤ words.length →
      wrapLoop words N f i m = .error .fuel := by
  induction f with
  | zero =>
    intro i m _ _
    rfl
  | succ f ih =>
    intro i m hw hi
    rw [wrapLoop_step words N hN hL f i m (by omega) hw]
    exact ih (i + 1) _ (by omega) (by omega)

theorem length_refGram_range (words : List String) (N a d : Nat) :
    ((List.range' a d).map (refGram words N)).length = d := by
  simp

/-! ## The model builder -/

/-- C1: for `2 ≤ N ≤ L`, `buildMap` on an empty mapping succeeds and yields the circular
reference mapping: a well-formed map whose keys are exactly the circular windows
`refWindow tokens N i` for `i < L`, and in which each key `p` is mapped to
`refSuffixes tokens N p`, the tokens following the occurrences of `p` in ascending order of
start index, duplicates kept. -/
theorem buildMap_refines_circular (tokens : List String) (N : Nat) (hN : 2 ≤ N)
    (hL : N ≤ tokens.length) :
    ∃ m, buildMap tokens N [] = .ok m ∧ m.WF ∧
      (∀ p, p ∈ m.keys ↔ ∃ i, i < tokens.length ∧ refWindow tokens N i = p) ∧
      (∀ p, p ∈ m.keys → m.atKey p = .ok (refSuffixes tokens N p)) := by
  refine ⟨pushAll [] (refGrams tokens N), buildMap_eq_pushAll tokens N (by omega) hL [],
    wf_pushAll wf_nil _, ?_, ?_⟩
  · intro p
    rw [mem_keys_pushAll, map_fst_refGrams]
    simp [GramMap.keys]
  · intro p hp
    rw [atKey_eq_ok_iff, find_eq_some_sufs hp, sufs_pushAll wf_nil, filter_refGrams]
    simp [GramMap.sufs, GramMap.find]

theorem buildMap_refines_circular_witness :
    ∃ m, buildMap ["a", "b", "a"] 2 [] = .ok m ∧ m.WF ∧
      (∀ p, p ∈ m.keys ↔ ∃ i, i < ["a", "b", "a"].length ∧ refWindow ["a", "b", "a"] 2 i = p) ∧
      (∀ p, p ∈ m.keys → m.atKey p = .ok (refSuffixes ["a", "b", "a"] 2 p)) :=
  buildMap_refines_circular ["a", "b", "a"] 2 (by decide) (by decide)

/-- C2: for `2 ≤ N ≤ L`, one build pass into an empty mapping records exactly `L` suffix
entries in total. -/
theorem buildMap_totalLen (tokens : List String) (N : Nat) (hN : 2 ≤ N)
    (hL : N ≤ tokens.length) :
    ∃ m, buildMap tokens N [] = .ok m ∧ m.totalLen = tokens.length := by
  refine ⟨pushAll [] (refGrams tokens N), buildMap_eq_pushAll tokens N (by omega) hL [], ?_⟩
  rw [totalLen_pushAll]
  simp [GramMap.totalLen, refGrams]

theorem buildMap_totalLen_witness :
    ∃ m, buildMap ["a", "b", "a"] 2 [] = .ok m ∧ m.totalLen = ["a", "b", "a"].length :=
  buildMap_totalLen ["a", "b", "a"] 2 (by decide) (by decide)

/-- C3: on the corpus `the cat sat on the mat` with `N = 3`, `buildMap` on an empty mapping
yields exactly the six entries of the worked example (listed in key order), each with a
one-element suffix list. -/
theorem buildMap_the_cat_sat :
    buildMap ["the", "cat", "sat", "on", "the", "mat"] 3 [] =
      .ok [(["cat", "sat"], ["on"]), (["mat", "the"], ["cat"]), (["on", "the"], ["mat"]),
           (["sat", "on"], ["the"]), (["the", "cat"], ["sat"]), (["the", "mat"], ["the"])] := by
  rfl

/-- C4: for `2 ≤ N ≤ L`, in the mapping built from an empty mapping every suffix `s`
recorded for a key `W` slides `W` (first word dropped, `s` appended) onto a key. -/
theorem buildMap_noDangling (tokens : List String) (N : Nat) (hN : 2 ≤ N)
    (hL : N ≤ tokens.length) :
    ∃ m, buildMap tokens N [] = .ok m ∧
      ∀ W, W ∈ m.keys → ∀ vs, m.atKey W = .ok vs → ∀ s, s ∈ vs → slide W s ∈ m.keys := by
  refine ⟨pushAll [] (refGrams tokens N), buildMap_eq_pushAll tokens N (by omega) hL [], ?_⟩
  intro W _ vs hvs s hs
  rw [atKey_eq_ok_iff] at hvs
  exact noDangling_pushAll_refGrams tokens N hN wf_nil noDangling_nil (W, vs)
    (GramMap.mem_of_find hvs) s hs

theorem buildMap_noDangling_witness :
    ∃ m, buildMap ["a", "b", "a"] 2 [] = .ok m ∧
      ∀ W, W ∈ m.keys → ∀ vs, m.atKey W = .ok vs → ∀ s, s ∈ vs → slide W s ∈ m.keys :=
  buildMap_noDangling ["a", "b", "a"] 2 (by decide) (by decide)

/-- C8: for `2 ≤ N ≤ L`, building into a mapping whose suffix lists are all non-empty (the
empty mapping in particular) succeeds, and every key of the result has a non-empty suffix
list. -/
theorem buildMap_sufs_nonempty (tokens : List String) (N : Nat) (m₀ : GramMap)
    (hN : 2 ≤ N) (hL : N ≤ tokens.length) (h₀ : ∀ e ∈ m₀, e.2 ≠ []) :
    ∃ m, buildMap tokens N m₀ = .ok m ∧
      (∀ e ∈ m, e.2 ≠ []) ∧ ∀ p, p ∈ m.keys → ∃ vs, m.atKey p = .ok vs ∧ vs ≠ [] := by
  refine ⟨pushAll m₀ (refGrams tokens N), buildMap_eq_pushAll tokens N (by omega) hL m₀,
    nonempty_pushAll h₀ _, ?_⟩
  intro p hp
  have hf := find_eq_some_sufs hp
  exact ⟨_, (atKey_eq_ok_iff _ _ _).mpr hf,
    nonempty_pushAll h₀ _ (p, _) (GramMap.mem_of_find hf)⟩

theorem buildMap_sufs_nonempty_witness :
    ∃ m, buildMap ["a", "b", "a"] 2 [] = .ok m ∧
      (∀ e ∈ m, e.2 ≠ []) ∧ ∀ p, p ∈ m.keys → ∃ vs, m.atKey p = .ok vs ∧ vs ≠ [] :=
  buildMap_sufs_nonempty ["a", "b", "a"] 2 [] (by decide) (by decide) (by decide)

/-- C9: for `2 ≤ N ≤ L`, building twice from the same tokens without clearing succeeds;
the second mapping has the same keys as the first and maps each key to its first suffix
list followed by itself, hence of twice the length. -/
theorem buildMap_twice (tokens : List String) (N : Nat) (hN : 2 ≤ N)
    (hL : N ≤ tokens.length) :
    ∃ m₁ m₂, buildMap tokens N [] = .ok m₁ ∧ buildMap tokens N m₁ = .ok m₂ ∧
      (∀ p, p ∈ m₂.keys ↔ p ∈ m₁.keys) ∧
      ∀ p, p ∈ m₁.keys → ∃ vs, m₁.atKey p = .ok vs ∧ m₂.atKey p = .ok (vs ++ vs) ∧
        (vs ++ vs).length = 2 * vs.length := by
  refine ⟨pushAll [] (refGrams tokens N), pushAll (pushAll [] (refGrams tokens N))
    (refGrams tokens N), buildMap_eq_pushAll tokens N (by omega) hL [],
    buildMap_eq_pushAll tokens N (by omega) hL _, ?_, ?_⟩
  · intro p
    rw [mem_keys_pushAll, mem_keys_pushAll]
    tauto
  · intro p hp
    have hp₂ : p ∈ (pushAll (pushAll [] (refGrams tokens N)) (refGrams tokens N)).keys := by
      rw [mem_keys_pushAll]
      exact Or.inl hp
    refine ⟨_, (atKey_eq_ok_iff _ _ _).mpr (find_eq_some_sufs hp), ?_, by simp; omega⟩
    rw [atKey_eq_ok_iff, find_eq_some_sufs hp₂, sufs_pushAll (wf_pushAll wf_nil _)]
    congr 2
    rw [sufs_pushAll wf_nil]
    simp [GramMap.sufs, GramMap.find]

theorem buildMap_twice_witness :
    ∃ m₁ m₂, buildMap ["a", "b", "a"] 2 [] = .ok m₁ ∧ buildMap ["a", "b", "a"] 2 m₁ = .ok m₂ ∧
      (∀ p, p ∈ m₂.keys ↔ p ∈ m₁.keys) ∧
      ∀ p, p ∈ m₁.keys → ∃ vs, m₁.atKey p = .ok vs ∧ m₂.atKey p = .ok (vs ++ vs) ∧
        (vs ++ vs).length = 2 * vs.length :=
  buildMap_twice ["a", "b", "a"] 2 (by decide) (by decide)

/-- C10: for `2 ≤ N ≤ L` and any (well-formed) initial mapping `m`, `buildMap` keeps what
`m` holds: the keys of the result are those of `m` together with those of a build into the
empty mapping, and each suffix list is the one of `m` followed by the one of the build into
the empty mapping (each empty when the key is absent). -/
theorem buildMap_frame (tokens : List String) (N : Nat) (m : GramMap) (hN : 2 ≤ N)
    (hL : N ≤ tokens.length) (hw : m.WF) :
    ∃ m' mb, buildMap tokens N m = .ok m' ∧ buildMap tokens N [] = .ok mb ∧ m'.WF ∧
      (∀ p, p ∈ m'.keys ↔ p ∈ m.keys ∨ p ∈ mb.keys) ∧
      ∀ p, m'.sufs p = m.sufs p ++ mb.sufs p := by
  refine ⟨pushAll m (refGrams tokens N), pushAll [] (refGrams tokens N),
    buildMap_eq_pushAll tokens N (by omega) hL m, buildMap_eq_pushAll tokens N (by omega) hL [],
    wf_pushAll hw _, ?_, ?_⟩
  · intro p
    rw [mem_keys_pushAll, mem_keys_pushAll]
    simp [GramMap.keys]
  · intro p
    rw [sufs_pushAll hw, sufs_pushAll wf_nil]
    simp [GramMap.sufs, GramMap.find]

theorem buildMap_frame_witness :
    ∃ m' mb, buildMap ["a", "b", "a"] 2 [(["a"], ["c"]), (["z"], ["a"])] = .ok m' ∧
      buildMap ["a", "b", "a"] 2 [] = .ok mb ∧ m'.WF ∧
      (∀ p, p ∈ m'.keys ↔ p ∈ GramMap.keys [(["a"], ["c"]), (["z"], ["a"])] ∨ p ∈ mb.keys) ∧
      ∀ p, m'.sufs p = GramMap.sufs [(["a"], ["c"]), (["z"], ["a"])] p ++ mb.sufs p :=
  buildMap_frame ["a", "b", "a"] 2 [(["a"], ["c"]), (["z"], ["a"])] (by decide) (by decide)
    (by decide)

/-! ## Further properties of the model builder -/

/-- C15: for `2 ≤ N ≤ L`, every key that `buildMap` adds to a mapping has length `N - 1`;
for each wrap-around start `i` in `[L - N + 1, L - 1]` the tail `tokens[i:]` and the padding
`tokens[0 : N - 1 - (L - i)]` are ranges inside the token sequence and together have length
`N - 1`. -/
theorem buildMap_key_length (tokens : List String) (N : Nat) (m₀ : GramMap) (hN : 2 ≤ N)
    (hL : N ≤ tokens.length) :
    ∃ m, buildMap tokens N m₀ = .ok m ∧
      (∀ k, k ∈ m.keys → k ∉ m₀.keys → k.length = N - 1) ∧
      ∀ i, tokens.length - N + 1 ≤ i → i < tokens.length →
        vecRange tokens i tokens.length = .ok (tokens.drop i) ∧
        (tokens.drop i).length + 1 ≤ N ∧
        N - 1 - (tokens.drop i).length ≤ tokens.length ∧
        vecRange tokens 0 (N - 1 - (tokens.drop i).length) =
          .ok (tokens.take (N - 1 - (tokens.length - i))) ∧
        (tokens.drop i ++ tokens.take (N - 1 - (tokens.length - i))).length = N - 1 := by
  refine ⟨pushAll m₀ (refGrams tokens N), buildMap_eq_pushAll tokens N (by omega) hL m₀,
    ?_, ?_⟩
  · intro k hk hk₀
    rw [mem_keys_pushAll, map_fst_refGrams] at hk
    rcases hk with hk | ⟨i, _, hi⟩
    · exact absurd hk hk₀
    · rw [← hi, length_refWindow]
  · intro i hi₁ hi₂
    have hlen : (tokens.drop i).length = tokens.length - i := List.length_drop i tokens
    refine ⟨?_, by omega, by omega, ?_, ?_⟩
    · unfold vecRange
      rw [if_pos ⟨by omega, le_refl _⟩, List.take_of_length_le (by simp)]
    · unfold vecRange
      rw [if_pos ⟨by omega, by omega⟩, hlen]
      simp
    · rw [List.length_append, List.length_take, hlen]
      omega

theorem buildMap_key_length_witness :
    ∃ m, buildMap ["a", "b", "c"] 3 [] = .ok m ∧
      (∀ k, k ∈ m.keys → k ∉ GramMap.keys [] → k.length = 3 - 1) ∧
      ∀ i, ["a", "b", "c"].length - 3 + 1 ≤ i → i < ["a", "b", "c"].length →
        vecRange ["a", "b", "c"] i ["a", "b", "c"].length = .ok (["a", "b", "c"].drop i) ∧
        (["a", "b", "c"].drop i).length + 1 ≤ 3 ∧
        3 - 1 - (["a", "b", "c"].drop i).length ≤ ["a", "b", "c"].length ∧
        vecRange ["a", "b", "c"] 0 (3 - 1 - (["a", "b", "c"].drop i).length) =
          .ok (["a", "b", "c"].take (3 - 1 - (["a", "b", "c"].length - i))) ∧
        (["a", "b", "c"].drop i ++
          ["a", "b", "c"].take (3 - 1 - (["a", "b", "c"].length - i))).length = 3 - 1 :=
  buildMap_key_length ["a", "b", "c"] 3 [] (by decide) (by decide)

/-- C16: for `2 ≤ N ≤ L`, `buildMap` raises no fault, whatever the initial mapping. The
first loop ends after exactly `L - N + 1` iterations (its guard is evaluated `L - N + 2`
times, one insertion per iteration), the second after exactly `N - 1` iterations, and no
access or range of either loop leaves the token sequence. -/
theorem buildMap_no_fault (tokens : List String) (N : Nat) (m₀ : GramMap) (hN : 2 ≤ N)
    (hL : N ≤ tokens.length) :
    ∃ m₁ m₂,
      interiorLoop tokens N (tokens.length - N + 2) 0 m₀ = .ok m₁ ∧
      interiorLoop tokens N (tokens.length - N + 1) 0 m₀ = .error .fuel ∧
      m₁.totalLen = m₀.totalLen + (tokens.length - N + 1) ∧
      wrapLoop tokens N N (tokens.length - N + 1) m₁ = .ok m₂ ∧
      wrapLoop tokens N (N - 1) (tokens.length - N + 1) m₁ = .error .fuel ∧
      m₂.totalLen = m₁.totalLen + (N - 1) ∧
      buildMap tokens N m₀ = .ok m₂ := by
  have h₁ := interiorLoop_eq tokens N (by omega) hL (tokens.length - N + 1) 0
    (tokens.length - N + 2) m₀ (by omega) (by omega)
  have h₂ := wrapLoop_eq tokens N (by omega) hL (N - 1) (tokens.length - N + 1) N
    (pushAll m₀ ((List.range' 0 (tokens.length - N + 1)).map (refGram tokens N)))
    (by omega) (by omega) (by omega)
  refine ⟨_, _, h₁, interiorLoop_fuel tokens N (by omega) hL _ 0 m₀ (by omega), ?_, h₂,
    wrapLoop_fuel tokens N (by omega) hL _ _ _ (by omega) (by omega), ?_, ?_⟩
  · rw [totalLen_pushAll, length_refGram_range]
  · rw [totalLen_pushAll, length_refGram_range]
  · rw [buildMap_eq_pushAll tokens N (by omega) hL m₀, refGrams_eq tokens N hL (by omega),
      pushAll_append]

theorem buildMap_no_fault_witness :
    ∃ m₁ m₂,
      interiorLoop ["a", "b", "c"] 2 (["a", "b", "c"].length - 2 + 2) 0 [] = .ok m₁ ∧
      interiorLoop ["a", "b", "c"] 2 (["a", "b", "c"].length - 2 + 1) 0 [] = .error .fuel ∧
      m₁.totalLen = GramMap.totalLen [] + (["a", "b", "c"].length - 2 + 1) ∧
      wrapLoop ["a", "b", "c"] 2 2 (["a", "b", "c"].length - 2 + 1) m₁ = .ok m₂ ∧
      wrapLoop ["a", "b", "c"] 2 (2 - 1) (["a", "b", "c"].length - 2 + 1) m₁ = .error .fuel ∧
      m₂.totalLen = m₁.totalLen + (2 - 1) ∧
      buildMap ["a", "b", "c"] 2 [] = .ok m₂ :=
  buildMap_no_fault ["a", "b", "c"] 2 [] (by decide) (by decide)

/-- C17: for `N ≥ 2` and fewer than `N` tokens, the bound `words.size() - N` of the first
loop wraps to `2^64 - (N - L)` (for `N` below `2^64`), so the guard holds at `i = 0`; token
index `N - 1` is out of range, and `buildMap` ends in an out-of-range fault instead of
returning the mapping unchanged. -/
theorem buildMap_short_corpus (words : List String) (N : Nat) (m : GramMap) (hN : 2 ≤ N)
    (hL : words.length < N) :
    (0 : Nat) ≤ wrapSize ((words.length : Int) - N) ∧
      (N ≤ 2 ^ 64 → wrapSize ((words.length : Int) - N) = 2 ^ 64 - (N - words.length)) ∧
      vecIndex words ((0 + N - 1 : Nat) : Int) = .error .outOfRange ∧
      buildMap words N m = .error .outOfRange := by
  have hidx : vecIndex words ((0 + N - 1 : Nat) : Int) = .error .outOfRange := by
    unfold vecIndex
    rw [if_pos (by omega), Int.toNat_ofNat, List.getElem?_eq_none (by omega)]
  refine ⟨Nat.zero_le _, ?_, hidx, ?_⟩
  · intro hN'
    unfold wrapSize
    rw [if_neg (by omega)]
    norm_num at hN' ⊢
    omega
  · unfold buildMap interiorLoop
    rw [if_pos (Nat.zero_le _)]
    unfold vecRange
    by_cases h : N - 1 ≤ words.length
    · rw [if_pos ⟨by omega, by omega⟩, hidx]
      rfl
    · rw [if_neg (by omega)]
      rfl

theorem buildMap_short_corpus_witness :
    (0 : Nat) ≤ wrapSize (((["a"] : List String).length : Int) - (2 : Nat)) ∧
      (2 ≤ 2 ^ 64 → wrapSize (((["a"] : List String).length : Int) - (2 : Nat)) =
        2 ^ 64 - (2 - (["a"] : List String).length)) ∧
      vecIndex ["a"] ((0 + 2 - 1 : Nat) : Int) = .error .outOfRange ∧
      buildMap ["a"] 2 [] = .error .outOfRange :=
  buildMap_short_corpus ["a"] 2 [] (by decide) (by decide)

/-- C19: for `2 ≤ N ≤ L`, building into a (well-formed) mapping in which every recorded
suffix slides its window onto a key succeeds and yields a mapping with the same property. -/
theorem buildMap_preserves_noDangling (tokens : List String) (N : Nat) (m : GramMap)
    (hN : 2 ≤ N) (hL : N ≤ tokens.length) (hw : m.WF) (hd : NoDangling m) :
    ∃ m', buildMap tokens N m = .ok m' ∧ m'.WF ∧ NoDangling m' ∧
      ∀ W, W ∈ m'.keys → ∀ vs, m'.atKey W = .ok vs → ∀ s, s ∈ vs → slide W s ∈ m'.keys := by
  have hd' := noDangling_pushAll_refGrams tokens N hN hw hd
  refine ⟨pushAll m (refGrams tokens N), buildMap_eq_pushAll tokens N (by omega) hL m,
    wf_pushAll hw _, hd', ?_⟩
  intro W _ vs hvs s hs
  rw [atKey_eq_ok_iff] at hvs
  exact hd' (W, vs) (GramMap.mem_of_find hvs) s hs

theorem buildMap_preserves_noDangling_witness :
    ∃ m', buildMap ["a", "b", "a"] 2 [(["x"], ["y"]), (["y"], ["x"])] = .ok m' ∧ m'.WF ∧
      NoDangling m' ∧
      ∀ W, W ∈ m'.keys → ∀ vs, m'.atKey W = .ok vs → ∀ s, s ∈ vs → slide W s ∈ m'.keys :=
  buildMap_preserves_noDangling ["a", "b", "a"] 2 [(["x"], ["y"]), (["y"], ["x"])]
    (by decide) (by decide) (by decide) (by decide)

/-! ## A corpus whose circular windows are pairwise distinct -/

theorem circ_mod_add (tokens : List String) (s k : Nat) :
    circ tokens (s % tokens.length + k) = circ tokens (s + k) := by
  unfold circ
  rw [Nat.mod_add_mod]

theorem refWindow_mod (tokens : List String) (N s : Nat) :
    refWindow tokens N (s % tokens.length) = refWindow tokens N s := by
  unfold refWindow
  apply List.map_congr_left
  intro j _
  exact circ_mod_add tokens s j

theorem refSuffixes_single (tokens : List String) (N i : Nat) (hi : i < tokens.length)
    (hD : ∀ a, a < tokens.length → ∀ b, b < tokens.length →
      refWindow tokens N a = refWindow tokens N b → a = b) :
    refSuffixes tokens N (refWindow tokens N i) = [circ tokens (i + N - 1)] := by
  unfold refSuffixes
  have hf : (List.range tokens.length).filter
      (fun i' => decide (refWindow tokens N i' = refWindow tokens N i)) =
      (List.range tokens.length).filter (fun i' => decide (i' = i)) := by
    apply List.filter_congr
    intro x hx
    rw [List.mem_range] at hx
    exact decide_eq_decide.mpr ⟨fun h => hD x hx i hi h, fun h => by rw [h]⟩
  rw [hf, List.filter_eq,
    List.count_eq_one_of_mem (List.nodup_range _) (List.mem_range.mpr hi)]
  rfl

/-- In the mapping built from a corpus with distinct windows, window `s` has the single
suffix `tokens[(s + N - 1) mod L]`. -/
theorem atKey_single (tokens : List String) (N : Nat) (hN : 2 ≤ N) (hL : N ≤ tokens.length)
    (hD : ∀ a, a < tokens.length → ∀ b, b < tokens.length →
      refWindow tokens N a = refWindow tokens N b → a = b) (s : Nat) :
    (pushAll [] (refGrams tokens N)).atKey (refWindow tokens N s) =
      .ok [circ tokens (s + (N - 1))] := by
  have hpos : 0 < tokens.length := by omega
  have hs : s % tokens.length < tokens.length := Nat.mod_lt _ hpos
  have hk : refWindow tokens N (s % tokens.length) ∈ (pushAll [] (refGrams tokens N)).keys := by
    rw [mem_keys_pushAll, map_fst_refGrams]
    exact Or.inr ⟨_, hs, rfl⟩
  rw [← refWindow_mod, atKey_eq_ok_iff, find_eq_some_sufs hk, sufs_pushAll wf_nil,
    filter_refGrams, refSuffixes_single tokens N _ hs hD]
  have h₁ : s % tokens.length + N - 1 = s % tokens.length + (N - 1) := by omega
  rw [h₁, circ_mod_add]
  simp [GramMap.sufs, GramMap.find]

theorem vecIndex_singleton {rnd : Nat → Int → Int → Int} (hr : InRange rnd) (c : Nat)
    (w : String) :
    vecIndex [w] (rnd c 0 ((([w] : List String).length : Int) - 1)) = .ok w := by
  obtain ⟨x, hx, hm⟩ := vecIndex_inRange (v := [w]) (by simp) hr c
  rw [List.mem_singleton] at hm
  rw [hx, hm]

/-- On a mapping where window `s` has the single suffix `tokens[(s + N - 1) mod L]`, the
iterations started on window `s` replay the corpus from position `s + N - 1`. -/
theorem genState_replay (tokens : List String) (N : Nat) (hN : 2 ≤ N) (m : GramMap)
    (hm : ∀ s, m.atKey (refWindow tokens N s) = .ok [circ tokens (s + (N - 1))])
    {rnd : Nat → Int → Int → Int} (hr : InRange rnd) (n : Nat) :
    ∀ (s c : Nat) (out : List String),
      ∃ cp', genState m rnd n c (refWindow tokens N s) out =
        .ok (cp', out ++ (List.range n).map (fun k => circ tokens (s + (N - 1) + k))) := by
  induction n with
  | zero =>
    intro s c out
    exact ⟨refWindow tokens N s, by simp [genState]⟩
  | succ n ih =>
    intro s c out
    have hne : refWindow tokens N s ≠ [] := by
      intro h
      have := length_refWindow tokens N s
      rw [h] at this
      simp at this
      omega
    obtain ⟨a, rest, hcp⟩ := List.exists_cons_of_ne_nil hne
    have hat := hm s
    have hnext : rest ++ [circ tokens (s + (N - 1))] = refWindow tokens N (s + 1) := by
      have h₁ := slide_refWindow tokens N s hN
      have h₂ : s + N - 1 = s + (N - 1) := by omega
      rw [hcp, h₂] at h₁
      exact h₁
    obtain ⟨cp', hrec⟩ := ih (s + 1) (c + 1) (out ++ [circ tokens (s + (N - 1))])
    have hl : out ++ [circ tokens (s + (N - 1))] ++
        (List.range n).map (fun k => circ tokens (s + 1 + (N - 1) + k)) =
        out ++ (List.range (n + 1)).map (fun k => circ tokens (s + (N - 1) + k)) := by
      rw [List.range_succ_eq_map]
      simp only [List.map_cons, List.map_map, List.append_assoc, List.singleton_append,
        Nat.add_zero]
      congr 2
      apply List.map_congr_left
      intro k _
      simp only [Function.comp]
      congr 1
      omega
    refine ⟨cp', ?_⟩
    rw [hcp] at hat
    rw [hcp, genState_succ, hat]
    simp only [Except.bind]
    rw [vecIndex_singleton hr]
    simp only []
    rw [hnext, hrec, hl]

/-- Below `INT_MAX`, a run on such a mapping writes the corpus cyclically from the start index of the key
drawn first. -/
theorem generateWords_replay (tokens : List String) (N : Nat) (hN : 2 ≤ N)
    (hL : N ≤ tokens.length)
    (hD : ∀ a, a < tokens.length → ∀ b, b < tokens.length →
      refWindow tokens N a = refWindow tokens N b → a = b)
    (totalWords : Nat) (ht : N ≤ totalWords) (hb : totalWords ≠ intMax)
    {rnd : Nat → Int → Int → Int} (hr : InRange rnd) :
    ∃ s, s < tokens.length ∧
      (pushAll [] (refGrams tokens N)).keys[(rnd 0 0
        (((pushAll [] (refGrams tokens N)).keys.length : Int) - 1)).toNat]? =
          some (refWindow tokens N s) ∧
      generateWords (pushAll [] (refGrams tokens N)) N totalWords rnd =
        .ok ((List.range totalWords).map (fun k => circ tokens (s + k))) := by
  have hne : (pushAll [] (refGrams tokens N)).keys ≠ [] := by
    have := pushAll_refGrams_ne_nil tokens N [] (by omega)
    simpa [GramMap.keys] using this
  obtain ⟨key, hkey, hmem⟩ := vecIndex_inRange hne hr 0
  rw [mem_keys_pushAll, map_fst_refGrams] at hmem
  rcases hmem with hmem | ⟨s, hs, hwin⟩
  · simp [GramMap.keys] at hmem
  · refine ⟨s, hs, ?_, ?_⟩
    · rw [hwin]
      exact (vecIndex_eq_ok hkey).2
    · obtain ⟨cp', hrec⟩ := genState_replay tokens N hN _ (atKey_single tokens N hN hL hD) hr
        (totalWords + 1 - N) s 1 (refWindow tokens N s)
      rw [hwin] at hrec
      have hwalk := (walk_of_vecIndex hkey (totalWords + 1 - N)).trans hrec
      rw [generateWords_of_walk hwalk hb, ← hwin]
      show Except.ok (refWindow tokens N s ++
        (List.range (totalWords + 1 - N)).map (fun k => circ tokens (s + (N - 1) + k))) = _
      have ht' : totalWords = (N - 1) + (totalWords + 1 - N) := by omega
      conv_rhs => rw [ht', List.range_add, List.map_append, List.map_map]
      refine congrArg Except.ok (congrArg₂ (fun x y => x ++ y) rfl ?_)
      apply List.map_congr_left
      intro k _
      simp only [Function.comp, Nat.add_assoc]

/-! ## The text generator -/

/-- Below `INT_MAX` the run completes: for `2 ≤ N ≤ L`, `totalWords < INT_MAX` and an
oracle that respects the bounds it is given, generation on the mapping built from an empty
mapping returns a text, so no window lookup fails and no vector is indexed out of range. -/
theorem generateText_after_buildMap_below_intMax (tokens : List String) (N totalWords : Nat)
    (rnd : Nat → Int → Int → Int) (hN : 2 ≤ N) (hL : N ≤ tokens.length) (hr : InRange rnd)
    (ht : totalWords < intMax) :
    ∃ m s, buildMap tokens N [] = .ok m ∧ generateText m N totalWords rnd = .ok s := by
  obtain ⟨ws, hws, _⟩ := generateWords_ok (m := pushAll [] (refGrams tokens N)) N totalWords
    (pushAll_refGrams_ne_nil tokens N [] (by omega))
    (keyLength_pushAll_refGrams tokens N (by simp)) hN
    (nonempty_pushAll (by simp) _)
    (noDangling_pushAll_refGrams tokens N hN wf_nil noDangling_nil) hr (Nat.ne_of_lt ht)
  refine ⟨_, emit "" ws, buildMap_eq_pushAll tokens N (by omega) hL [], ?_⟩
  rw [generateText_eq_map, hws]
  rfl

/-- C5 (code defect): on the mapping built from `a b a` with `N = 2`, and the oracle that
always answers its lower bound, `generateText` with `totalWords = INT_MAX` does not complete
with a result: no lookup fails and no index leaves its vector, but the loop guard
`i <= totalWords` cannot fail and the counter overflows at `++i`. -/
theorem generateText_after_buildMap_intMax :
    buildMap ["a", "b", "a"] 2 [] = .ok [(["a"], ["b", "a"]), (["b"], ["a"])] ∧
      InRange (fun _ lo _ => lo) ∧
      generateText [(["a"], ["b", "a"]), (["b"], ["a"])] 2 2147483647 (fun _ lo _ => lo) =
        .error .overflow :=
  ⟨rfl, fun _ _ _ h => ⟨le_refl _, h⟩,
    (generateText_intMax [(["a"], ["b", "a"]), (["b"], ["a"])]
      (fun _ lo _ => lo) 2 (by decide) (by decide) (by decide) (by decide)
      (by decide) (by decide) (fun _ _ _ h => ⟨le_refl _, h⟩)).2⟩

/-- Below `INT_MAX` the text has `totalWords` words: for `N ≥ 2`,
`N ≤ totalWords < INT_MAX`, a non-empty mapping with keys of length `N - 1`, non-empty
suffix lists and no dangling window, and an oracle respecting its bounds, `generateText`
returns the concatenation of `w ++ " "` over the words it wrote, and these are exactly
`totalWords` words. -/
theorem generateText_totalWords_below_intMax (m : GramMap) (N totalWords : Nat)
    (rnd : Nat → Int → Int → Int) (hN : 2 ≤ N) (ht : N ≤ totalWords) (hne : m ≠ [])
    (hk : ∀ e ∈ m, e.1.length = N - 1) (hs : ∀ e ∈ m, e.2 ≠ []) (hd : NoDangling m)
    (hr : InRange rnd) (hb : totalWords < intMax) :
    ∃ ws, ws.length = totalWords ∧ generateWords m N totalWords rnd = .ok ws ∧
      generateText m N totalWords rnd = .ok (String.join (ws.map (fun w => w ++ " "))) := by
  obtain ⟨ws, hws, hlen⟩ :=
    generateWords_ok N totalWords hne hk hN hs hd hr (Nat.ne_of_lt hb)
  refine ⟨ws, by omega, hws, ?_⟩
  rw [generateText_eq_map, hws, ← emit_eq_join]
  rfl

/-- C6 (code defect): the mapping `[a] -> [b]`, `[b] -> [a, b]` with `N = 2` and the oracle
that always answers its lower bound meet the conditions of the claim, and
`totalWords = INT_MAX ≥ N`; yet `generateText` returns no text of `totalWords` words: after
the iteration at `i = INT_MAX` the increment `++i` overflows. -/
theorem generateText_totalWords_intMax :
    (([(["a"], ["b"]), (["b"], ["a", "b"])] : GramMap) ≠ [] ∧
      (∀ e ∈ ([(["a"], ["b"]), (["b"], ["a", "b"])] : GramMap), e.1.length = 2 - 1) ∧
      (∀ e ∈ ([(["a"], ["b"]), (["b"], ["a", "b"])] : GramMap), e.2 ≠ []) ∧
      NoDangling [(["a"], ["b"]), (["b"], ["a", "b"])] ∧ InRange (fun _ lo _ => lo) ∧
      2 ≤ 2147483647) ∧
      generateWords [(["a"], ["b"]), (["b"], ["a", "b"])] 2 2147483647 (fun _ lo _ => lo) =
        .error .overflow ∧
      generateText [(["a"], ["b"]), (["b"], ["a", "b"])] 2 2147483647 (fun _ lo _ => lo) =
        .error .overflow :=
  ⟨⟨by decide, by decide, by decide, by decide, fun _ _ _ h => ⟨le_refl _, h⟩, by decide⟩,
    generateText_intMax [(["a"], ["b"]), (["b"], ["a", "b"])]
      (fun _ lo _ => lo) 2 (by decide) (by decide) (by decide) (by decide)
      (by decide) (by decide) (fun _ _ _ h => ⟨le_refl _, h⟩)⟩

/-- C7: when `generateText` succeeds on a mapping whose keys have length `N - 1`, its text
is the concatenation of `w ++ " "` over the words written, and for each position
`k ≥ N - 1` the `N - 1` words before position `k` are a key of the mapping and the word at
position `k` belongs to the suffix list of that key. -/
theorem generateText_ngrams (m : GramMap) (N totalWords : Nat) (rnd : Nat → Int → Int → Int)
    (s : String) (hk : ∀ e ∈ m, e.1.length = N - 1)
    (h : generateText m N totalWords rnd = .ok s) :
    ∃ ws, generateWords m N totalWords rnd = .ok ws ∧
      s = String.join (ws.map (fun w => w ++ " ")) ∧
      ∀ k, N - 1 ≤ k → k < ws.length →
        ∃ vs w, (ws.drop (k - (N - 1))).take (N - 1) ∈ m.keys ∧
          m.atKey ((ws.drop (k - (N - 1))).take (N - 1)) = .ok vs ∧
          ws[k]? = some w ∧ w ∈ vs := by
  rw [generateText_eq_map] at h
  obtain ⟨ws, hws, hs⟩ := map_eq_ok h
  refine ⟨ws, hws, by rw [hs, emit_eq_join], ?_⟩
  obtain ⟨st, hst, hws₂⟩ := generateWords_ok_walk hws
  obtain ⟨cp, _, hcp, hgen, _, _⟩ := walk_ok hst
  obtain ⟨e, he, hcpe⟩ := List.mem_map.mp (vecIndex_ok_mem hcp)
  have hlen : cp.length = N - 1 := by rw [← hcpe]; exact hk e he
  obtain ⟨_, hP⟩ := genState_sound m rnd N _ 1 cp cp st hlen
    (by rw [hlen]; simp) (by omega) hgen
  intro k hk₁ hk₂
  rw [hws₂] at hk₂ ⊢
  obtain ⟨vs, w, hf, hw, hm⟩ := hP k (by omega) hk₂
  refine ⟨vs, w, ?_, (atKey_eq_ok_iff _ _ _).mpr hf, hw, hm⟩
  rw [← GramMap.find_isSome_iff, hf]
  rfl

theorem generateText_ngrams_witness :
    ∃ ws, generateWords [(["a"], ["b"]), (["b"], ["a", "b"])] 2 5 (fun _ lo _ => lo) = .ok ws ∧
      "a b a b a " = String.join (ws.map (fun w => w ++ " ")) ∧
      ∀ k, 2 - 1 ≤ k → k < ws.length →
        ∃ vs w, (ws.drop (k - (2 - 1))).take (2 - 1) ∈
            GramMap.keys [(["a"], ["b"]), (["b"], ["a", "b"])] ∧
          GramMap.atKey [(["a"], ["b"]), (["b"], ["a", "b"])]
            ((ws.drop (k - (2 - 1))).take (2 - 1)) = .ok vs ∧
          ws[k]? = some w ∧ w ∈ vs :=
  generateText_ngrams [(["a"], ["b"]), (["b"], ["a", "b"])] 2 5 (fun _ lo _ => lo)
    "a b a b a " (by decide) (by rfl)

/-! ## Further properties of the text generator -/

/-- C11 (code defect): after `clear` the mapping has no key, and for every `N`,
`totalWords` and oracle `generateText` on it reaches the unchecked access
`keys[randomIndex]` into the empty key vector: undefined behaviour, not an exception
thrown to the caller, so the code raises no empty-model error. -/
theorem generateText_after_clear (m : GramMap) (N totalWords : Nat)
    (rnd : Nat → Int → Int → Int) :
    (clear m).keys = [] ∧ (clear m).keys.length = 0 ∧
      generateText (clear m) N totalWords rnd = .error .outOfRange ∧
      Fault.thrown .outOfRange = false := by
  refine ⟨rfl, rfl, ?_, rfl⟩
  simp only [generateText, clear, GramMap.keys, List.map_nil, vecIndex, bind, Except.bind]
  by_cases h : 0 ≤ rnd 0 0 (((([] : List (List String)).length : Nat) : Int) - 1)
  · rw [if_pos h]
    rfl
  · rw [if_neg h]

/-- C12: `generateText` is fail-fast on a missing window. If the walk reaches one of its
`totalWords + 1 - N` iterations with a window that is not a key, the call ends in the
lookup fault and returns no text; and when the call returns a text, the window of every
iteration was a key. -/
theorem generateText_fail_fast (m : GramMap) (N totalWords : Nat)
    (rnd : Nat → Int → Int → Int) :
    (∀ j cp out, j < totalWords + 1 - N → walk m rnd j = .ok (cp, out) → cp ∉ m.keys →
      generateText m N totalWords rnd = .error .keyNotFound) ∧
    (∀ s, generateText m N totalWords rnd = .ok s →
      ∀ j, j < totalWords + 1 - N → ∃ cp out, walk m rnd j = .ok (cp, out) ∧ cp ∈ m.keys) := by
  constructor
  · intro j cp out hj hw hcp
    obtain ⟨b, hb⟩ : ∃ b, totalWords + 1 - N = j + (b + 1) :=
      ⟨totalWords + 1 - N - j - 1, by omega⟩
    rw [generateText_eq_map, generateWords_eq_walk, hb, walk_add, hw]
    simp only [Except.bind]
    rw [genState_succ_of_not_mem m rnd b (1 + j) out hcp]
    rfl
  · intro s hs j hj
    obtain ⟨b, hb⟩ : ∃ b, totalWords + 1 - N = j + (b + 1) :=
      ⟨totalWords + 1 - N - j - 1, by omega⟩
    rw [generateText_eq_map] at hs
    obtain ⟨ws, hws, _⟩ := map_eq_ok hs
    obtain ⟨st, hst, _⟩ := generateWords_ok_walk hws
    rw [hb] at hst
    obtain ⟨st', hst', hrest⟩ := walk_prefix_ok hst
    obtain ⟨vs, _, _, _, hat, _, _, _⟩ := genState_succ_ok hrest
    exact ⟨st'.1, st'.2, hst', mem_keys_of_atKey hat⟩

theorem generateText_fail_fast_witness :
    generateText [(["a"], ["b"])] 2 3 (fun _ lo _ => lo) = .error .keyNotFound :=
  (generateText_fail_fast [(["a"], ["b"])] 2 3 (fun _ lo _ => lo)).1 1 ["b"] ["a", "b"]
    (by decide) rfl (by decide)

/-- C13 as stated fails: with `totalWords = 1 < N = 2` the text generated from the built
mapping has a single word. -/
theorem generateText_short_counterexample :
    buildMap ["a", "b", "a"] 2 [] = .ok [(["a"], ["b", "a"]), (["b"], ["a"])] ∧
      generateWords [(["a"], ["b", "a"]), (["b"], ["a"])] 2 1 (fun _ lo _ => lo) = .ok ["a"] ∧
      generateText [(["a"], ["b", "a"]), (["b"], ["a"])] 2 1 (fun _ lo _ => lo) = .ok "a " ∧
      ¬ (2 ≤ ["a"].length) :=
  ⟨rfl, rfl, rfl, by decide⟩

/-- C13, amended: for `2 ≤ N ≤ L` and every `totalWords`, a successful `generateText` on
the mapping built from an empty mapping writes exactly `N - 1 + (totalWords + 1 - N)` words:
at least the `N - 1` words of the start key, and at least `N` words when `totalWords ≥ N`. -/
theorem generateText_min_words (tokens : List String) (N totalWords : Nat)
    (rnd : Nat → Int → Int → Int) (m : GramMap) (s : String) (hN : 2 ≤ N)
    (hL : N ≤ tokens.length) (hb : buildMap tokens N [] = .ok m)
    (h : generateText m N totalWords rnd = .ok s) :
    ∃ ws, generateWords m N totalWords rnd = .ok ws ∧
      s = String.join (ws.map (fun w => w ++ " ")) ∧
      ws.length = N - 1 + (totalWords + 1 - N) ∧ N - 1 ≤ ws.length ∧
      (N ≤ totalWords → N ≤ ws.length) := by
  rw [buildMap_eq_pushAll tokens N (by omega) hL] at hb
  simp only [Except.ok.injEq] at hb
  have hk : ∀ e ∈ m, e.1.length = N - 1 := by
    rw [← hb]
    exact keyLength_pushAll_refGrams tokens N (by simp)
  rw [generateText_eq_map] at h
  obtain ⟨ws, hws, hs⟩ := map_eq_ok h
  obtain ⟨st, hst, hws₂⟩ := generateWords_ok_walk hws
  obtain ⟨key, ws', hkey, _, hout, hlen⟩ := walk_ok hst
  obtain ⟨e, he, hke⟩ := List.mem_map.mp (vecIndex_ok_mem hkey)
  have hkl : key.length = N - 1 := by rw [← hke]; exact hk e he
  have hl : ws.length = N - 1 + (totalWords + 1 - N) := by
    rw [hws₂, hout, List.length_append, hkl, hlen]
  exact ⟨ws, hws, by rw [hs, emit_eq_join], hl, by omega, fun _ => by omega⟩

theorem generateText_min_words_witness :
    ∃ ws, generateWords [(["a"], ["b", "a"]), (["b"], ["a"])] 2 1 (fun _ lo _ => lo) = .ok ws ∧
      "a " = String.join (ws.map (fun w => w ++ " ")) ∧
      ws.length = 2 - 1 + (1 + 1 - 2) ∧ 2 - 1 ≤ ws.length ∧ (2 ≤ 1 → 2 ≤ ws.length) :=
  generateText_min_words ["a", "b", "a"] 2 1 (fun _ lo _ => lo)
    [(["a"], ["b", "a"]), (["b"], ["a"])] "a " (by decide) (by decide) rfl rfl

/-- C14: in a successful run, the first draw is asked in `[0, count - 1]` for the `count`
keys of the mapping and the words written begin with the key at the drawn index of the key
enumeration (its `N - 1` words when keys have length `N - 1`; the keys before it are
smaller when the mapping is in ascending key order); draw `j + 1` is asked in
`[0, len - 1]` for the suffix list of the window of iteration `j`, and the word written by
that iteration is the suffix at the drawn index. -/
theorem generateWords_draws (m : GramMap) (N totalWords : Nat) (rnd : Nat → Int → Int → Int)
    (ws : List String) (h : generateWords m N totalWords rnd = .ok ws) :
    ∃ key, generateText m N totalWords rnd = .ok (String.join (ws.map (fun w => w ++ " "))) ∧
      0 ≤ rnd 0 0 ((m.keys.length : Int) - 1) ∧
      rnd 0 0 ((m.keys.length : Int) - 1) ≤ (m.keys.length : Int) - 1 ∧
      m.keys[(rnd 0 0 ((m.keys.length : Int) - 1)).toNat]? = some key ∧
      ws.take key.length = key ∧
      ((∀ e ∈ m, e.1.length = N - 1) → ws.take (N - 1) = key) ∧
      (m.WF → ∀ i k', i < (rnd 0 0 ((m.keys.length : Int) - 1)).toNat →
        m.keys[i]? = some k' → keyLt k' key) ∧
      ∀ j, j < totalWords + 1 - N →
        ∃ cp out vs w, walk m rnd j = .ok (cp, out) ∧ m.atKey cp = .ok vs ∧
          0 ≤ rnd (j + 1) 0 ((vs.length : Int) - 1) ∧
          rnd (j + 1) 0 ((vs.length : Int) - 1) ≤ (vs.length : Int) - 1 ∧
          vs[(rnd (j + 1) 0 ((vs.length : Int) - 1)).toNat]? = some w ∧
          ws[key.length + j]? = some w := by
  obtain ⟨st, hst, hws₂⟩ := generateWords_ok_walk h
  obtain ⟨key, ws', hkey, _, hout, _⟩ := walk_ok hst
  obtain ⟨hidx, hget⟩ := vecIndex_eq_ok hkey
  obtain ⟨hlt, hgetE⟩ := List.getElem?_eq_some.mp hget
  have htake : ws.take key.length = key := by
    rw [hws₂, hout, List.take_left]
  refine ⟨key, ?_, hidx, by omega, hget, htake, ?_, ?_, ?_⟩
  · rw [generateText_eq_map, h, ← emit_eq_join]
    rfl
  · intro hk
    obtain ⟨e, he, hke⟩ := List.mem_map.mp (vecIndex_ok_mem hkey)
    have hkl : key.length = N - 1 := by rw [← hke]; exact hk e he
    rw [← hkl]
    exact htake
  · intro hw i k' hi hk'
    obtain ⟨hlt', hk'E⟩ := List.getElem?_eq_some.mp hk'
    have := List.pairwise_iff_getElem.mp hw i _ hlt' hlt hi
    rw [hk'E, hgetE] at this
    exact this
  · intro j hj
    obtain ⟨b, hb⟩ : ∃ b, totalWords + 1 - N = j + (b + 1) :=
      ⟨totalWords + 1 - N - j - 1, by omega⟩
    rw [hb] at hst
    obtain ⟨st', hst', hrest⟩ := walk_prefix_ok hst
    obtain ⟨vs, w, a, rest, hat, hvi, _, hrec⟩ := genState_succ_ok hrest
    obtain ⟨ws₂, hws₂', _⟩ := genState_out m rnd b _ _ _ st hrec
    obtain ⟨key', ws₁, hkey', _, hout', hlen'⟩ := walk_ok hst'
    rw [hkey] at hkey'
    simp only [Except.ok.injEq] at hkey'
    subst hkey'
    rw [Nat.add_comm 1 j] at hvi
    obtain ⟨hd, hdget⟩ := vecIndex_eq_ok hvi
    obtain ⟨hdlt, _⟩ := List.getElem?_eq_some.mp hdget
    refine ⟨st'.1, st'.2, vs, w, hst', hat, hd, by omega, hdget, ?_⟩
    rw [hws₂, hws₂', hout', List.append_assoc, List.append_assoc,
      List.getElem?_append_right (by omega), List.getElem?_append_right (by omega)]
    have : key.length + j - key.length - ws₁.length = 0 := by omega
    rw [this]
    simp

theorem generateWords_draws_witness :
    ∃ key, generateText [(["a"], ["b"]), (["b"], ["a", "b"])] 2 5 (fun _ lo _ => lo) =
        .ok (String.join ((["a", "b", "a", "b", "a"] : List String).map (fun w => w ++ " "))) ∧
      0 ≤ (fun (_ : Nat) (lo _ : Int) => lo) 0 0
        (((GramMap.keys [(["a"], ["b"]), (["b"], ["a", "b"])]).length : Int) - 1) ∧
      (fun (_ : Nat) (lo _ : Int) => lo) 0 0
        (((GramMap.keys [(["a"], ["b"]), (["b"], ["a", "b"])]).length : Int) - 1) ≤
        ((GramMap.keys [(["a"], ["b"]), (["b"], ["a", "b"])]).length : Int) - 1 ∧
      (GramMap.keys [(["a"], ["b"]), (["b"], ["a", "b"])])[((fun (_ : Nat) (lo _ : Int) => lo)
        0 0 (((GramMap.keys [(["a"], ["b"]), (["b"], ["a", "b"])]).length : Int) - 1)).toNat]? =
        some key ∧
      (["a", "b", "a", "b", "a"] : List String).take key.length = key ∧
      ((∀ e ∈ ([(["a"], ["b"]), (["b"], ["a", "b"])] : GramMap), e.1.length = 2 - 1) →
        (["a", "b", "a", "b", "a"] : List String).take (2 - 1) = key) ∧
      (GramMap.WF [(["a"], ["b"]), (["b"], ["a", "b"])] → ∀ i k',
        i < ((fun (_ : Nat) (lo _ : Int) => lo) 0 0
          (((GramMap.keys [(["a"], ["b"]), (["b"], ["a", "b"])]).length : Int) - 1)).toNat →
        (GramMap.keys [(["a"], ["b"]), (["b"], ["a", "b"])])[i]? = some k' → keyLt k' key) ∧
      ∀ j, j < 5 + 1 - 2 →
        ∃ cp out vs w,
          walk [(["a"], ["b"]), (["b"], ["a", "b"])] (fun _ lo _ => lo) j = .ok (cp, out) ∧
          GramMap.atKey [(["a"], ["b"]), (["b"], ["a", "b"])] cp = .ok vs ∧
          0 ≤ (fun (_ : Nat) (lo _ : Int) => lo) (j + 1) 0 ((vs.length : Int) - 1) ∧
          (fun (_ : Nat) (lo _ : Int) => lo) (j + 1) 0 ((vs.length : Int) - 1) ≤
            (vs.length : Int) - 1 ∧
          vs[((fun (_ : Nat) (lo _ : Int) => lo) (j + 1) 0 ((vs.length : Int) - 1)).toNat]? =
            some w ∧
          (["a", "b", "a", "b", "a"] : List String)[key.length + j]? = some w :=
  generateWords_draws [(["a"], ["b"]), (["b"], ["a", "b"])] 2 5 (fun _ lo _ => lo)
    ["a", "b", "a", "b", "a"] rfl

/-- Below `INT_MAX` the run is a cyclic replay: for `2 ≤ N ≤ L` and a corpus whose `L`
circular windows are pairwise distinct, every key of the built mapping has exactly one
suffix; for `N ≤ totalWords < INT_MAX` and an oracle
respecting its bounds, the words written are `tokens[(s + k) mod L]` for
`k < totalWords`, with `s` the start index of the key drawn first, so two runs with the
same first draw write the same words. -/
theorem generateWords_cyclic_replay_below_intMax (tokens : List String) (N : Nat) (hN : 2 ≤ N)
    (hL : N ≤ tokens.length)
    (hD : ∀ a, a < tokens.length → ∀ b, b < tokens.length →
      refWindow tokens N a = refWindow tokens N b → a = b) :
    ∃ m, buildMap tokens N [] = .ok m ∧ (∀ e ∈ m, e.2.length = 1) ∧
      ∀ (totalWords : Nat) (rnd : Nat → Int → Int → Int), N ≤ totalWords →
        totalWords < intMax → InRange rnd →
        ∃ s, s < tokens.length ∧
          m.keys[(rnd 0 0 ((m.keys.length : Int) - 1)).toNat]? =
            some (refWindow tokens N s) ∧
          generateWords m N totalWords rnd =
            .ok ((List.range totalWords).map (fun k => circ tokens (s + k))) ∧
          generateText m N totalWords rnd =
            .ok (String.join (((List.range totalWords).map (fun k => circ tokens (s + k))).map
              (fun w => w ++ " "))) ∧
          ∀ rnd' : Nat → Int → Int → Int, InRange rnd' →
            rnd' 0 0 ((m.keys.length : Int) - 1) = rnd 0 0 ((m.keys.length : Int) - 1) →
            generateWords m N totalWords rnd' = generateWords m N totalWords rnd := by
  refine ⟨pushAll [] (refGrams tokens N), buildMap_eq_pushAll tokens N (by omega) hL [],
    ?_, ?_⟩
  · intro e he
    have hk : e.1 ∈ (pushAll [] (refGrams tokens N)).keys := List.mem_map.mpr ⟨e, he, rfl⟩
    rw [mem_keys_pushAll, map_fst_refGrams] at hk
    rcases hk with hk | ⟨i, hi, hwin⟩
    · simp [GramMap.keys] at hk
    · rw [mem_pushAll wf_nil _ he, filter_refGrams, ← hwin,
        refSuffixes_single tokens N i hi hD]
      simp [GramMap.sufs, GramMap.find]
  · intro totalWords rnd ht hb hr
    obtain ⟨s, hs, hkey, hws⟩ :=
      generateWords_replay tokens N hN hL hD totalWords ht (Nat.ne_of_lt hb) hr
    refine ⟨s, hs, hkey, hws, ?_, ?_⟩
    · rw [generateText_eq_map, hws, ← emit_eq_join]
      rfl
    · intro rnd' hr' heq
      obtain ⟨s', hs', hkey', hws'⟩ :=
        generateWords_replay tokens N hN hL hD totalWords ht (Nat.ne_of_lt hb) hr'
      rw [heq, hkey] at hkey'
      simp only [Option.some.injEq] at hkey'
      have hss : s = s' := hD s hs s' hs' hkey'
      rw [hws, hws', hss]

/-- C18 (code defect): the corpus `a b c` with `N = 2` has pairwise distinct circular
windows, and its built mapping has one suffix per key; with `totalWords = INT_MAX ≥ N` and
the oracle that always answers its lower bound, `generateText` writes no cyclic replay of
`totalWords` words: the run ends in the overflow of the loop counter. -/
theorem generateWords_cyclic_replay_intMax :
    (∀ a, a < ["a", "b", "c"].length → ∀ b, b < ["a", "b", "c"].length →
      refWindow ["a", "b", "c"] 2 a = refWindow ["a", "b", "c"] 2 b → a = b) ∧
      buildMap ["a", "b", "c"] 2 [] =
        .ok [(["a"], ["b"]), (["b"], ["c"]), (["c"], ["a"])] ∧
      generateWords [(["a"], ["b"]), (["b"], ["c"]), (["c"], ["a"])] 2 2147483647
        (fun _ lo _ => lo) = .error .overflow ∧
      generateText [(["a"], ["b"]), (["b"], ["c"]), (["c"], ["a"])] 2 2147483647
        (fun _ lo _ => lo) = .error .overflow :=
  ⟨by decide, rfl,
    generateText_intMax [(["a"], ["b"]), (["b"], ["c"]), (["c"], ["a"])]
      (fun _ lo _ => lo) 2 (by decide) (by decide) (by decide) (by decide)
      (by decide) (by decide) (fun _ _ _ h => ⟨le_refl _, h⟩)⟩

end TextGenerator
